import Mathlib

/-!
# Verification of the litteratureaudio.com ripper core

Shallow embedding, in Lean 4, of the folder-placement resolver and
collection/crawl state machine of the ripper:

* string utilities of src/core/utils.py (sanitize_filename, slug_from_url,
  unique_path),
* the crawl generator iter_items of src/app/scraper.py (BFS over an abstract
  site, the three context-propagation maps, listing pagination), together with
  the paginated track loader load_more_tracks,
* child-URL extraction extract_collection_urls of src/infra/parser.py over an
  abstract parsed document,
* the folder path resolver _determine_folder_paths and the versioned item
  naming _build_versioned_item_name of src/app/downloader_pipeline.py.

Python strings are modelled as Lean String (code-point lists); Python dicts
keyed by URL as functions String → Option String with overwriting update;
the filesystem and the HTTP fetcher as explicit function parameters; the two
generator loops (crawl, track pagination) as fuel-indexed step functions so
that every definition stays executable.  Whitespace is modelled over the ASCII
whitespace class of Python's re module; the inputs of this program (titles,
URLs, slugs) are covered by it.
-/

/-! ## Python character classes and string helpers (src/core/utils.py) -/

/-- The whitespace class matched by Python's regex \s, restricted to ASCII
(space, tab, newline, carriage return, form feed, vertical tab). -/
def isPySpace (c : Char) : Bool :=
  c = ' ' || c = '\t' || c = '\n' || c = '\x0d' || c = '\x0b' || c = '\x0c'

/-- The characters removed by INVALID_CHARS_RE, the class <>:"/\|?* . -/
def isForbiddenChar (c : Char) : Bool :=
  c = '<' || c = '>' || c = ':' || c = '\"' || c = '/' || c = '\\' ||
  c = '|' || c = '?' || c = '*'

/-- Python truthiness of a string: empty strings are falsy. -/
def pyOrS (a b : String) : String := if a.data.isEmpty then b else a

/-- Python truthiness of an optional string (None and "" are falsy). -/
def truO (o : Option String) : Bool :=
  match o with
  | none => false
  | some s => !s.data.isEmpty

/-- Occurrence scan: does sub occur as a contiguous run of l? -/
def listInfix (sub : List Char) : List Char → Bool
  | [] => sub.isEmpty
  | c :: rest => sub.isPrefixOf (c :: rest) || listInfix sub rest

/-- Python substring containment, sub in s. -/
def pyIn (sub s : String) : Bool := listInfix sub.data s.data

/-- Suffix test on code points, s.endswith(suf). -/
def endsWithL (suf s : String) : Bool := suf.data.reverse.isPrefixOf s.data.reverse

/-- Split on a single separator character (Python str.split(sep) shape). -/
def splitOnChar (sep : Char) : List Char → List (List Char)
  | [] => [[]]
  | c :: rest =>
    let r := splitOnChar sep rest
    if c = sep then [] :: r
    else
      match r with
      | [] => [[c]]
      | h :: t => (c :: h) :: t

/-- The remainder after the first occurrence of sep, if sep occurs at all
(s.split(sep, 1)[-1] when the split is non-trivial). -/
def dropThroughFirst (sep : List Char) : List Char → Option (List Char)
  | [] => none
  | c :: rest =>
    if sep.isPrefixOf (c :: rest) then some ((c :: rest).drop sep.length)
    else dropThroughFirst sep rest

/-- ASCII lower-casing of one character; the sentinel comparisons of the
source ("auteurs divers") are ASCII, so this models str.lower faithfully on
the inputs that reach it. -/
def lowerChar (c : Char) : Char :=
  if 'A' ≤ c && c ≤ 'Z' then Char.ofNat (c.toNat + 32) else c

/-- ASCII str.lower on a string. -/
def pyLower (s : String) : String := String.mk (s.data.map lowerChar)

/-- Fuel-indexed worker for replaceL; one fuel unit per scanned position, so
fuel = input length always suffices. -/
def replaceLAux (p : Char) (ps rep : List Char) : Nat → List Char → List Char
  | 0, l => l
  | _ + 1, [] => []
  | fuel + 1, c :: rest =>
    if (p :: ps).isPrefixOf (c :: rest) then
      rep ++ replaceLAux p ps rep fuel (rest.drop ps.length)
    else
      c :: replaceLAux p ps rep fuel rest

/-- Python str.replace on code-point lists: replace each non-overlapping
occurrence of pat, scanning left to right.  For the empty pattern (never used
by the source) the input is returned unchanged. -/
def replaceL (pat rep l : List Char) : List Char :=
  match pat with
  | [] => l
  | p :: ps => replaceLAux p ps rep l.length l

/-- WHITESPACE_RE.sub(' ', ·): collapse each maximal run of whitespace to a
single space.  The Bool carries whether the previous output char closed a
whitespace run. -/
def collapseWsL : Bool → List Char → List Char
  | _, [] => []
  | prevSpace, c :: rest =>
    if isPySpace c then
      if prevSpace then collapseWsL true rest
      else ' ' :: collapseWsL true rest
    else c :: collapseWsL false rest

/-- Remove the maximal whitespace suffix (the right half of str.strip). -/
def dropTrailingWs : List Char → List Char
  | [] => []
  | c :: rest =>
    let r := dropTrailingWs rest
    if r.isEmpty && isPySpace c then [] else c :: r

/-- cut.rsplit(' ', 1)[0]: everything strictly before the last space.  When
the list has no space (excluded by the caller's guard) the result is []. -/
def takeBeforeLastSpace : List Char → List Char
  | [] => []
  | c :: rest => if ' ' ∈ rest then c :: takeBeforeLastSpace rest else []

/-- The truncation step of sanitize_filename: name[:max_length], backing up
to the last word boundary when the cut contains a space. -/
def truncateL (maxLength : Nat) (l : List Char) : List Char :=
  if l.length > maxLength then
    let cut := l.take maxLength
    if ' ' ∈ cut then takeBeforeLastSpace cut else cut
  else l

/-- The substitution stages of sanitize_filename: the colon placeholder
COLON_TOKEN is written before underscores are turned into spaces, then the
(now mangled) placeholder is searched for, and the forbidden characters are
removed. -/
def sanitizeClean (name : String) : List Char :=
  let l1 := replaceL [':'] "COLON_TOKEN".data name.data
  let l2 := replaceL ['_'] [' '] l1
  let l3 := replaceL "COLON_TOKEN".data ['_'] l2
  l3.filter (fun c => !isForbiddenChar c)

/-- The whitespace stages: collapse runs to single spaces, then strip. -/
def sanitizeWs (name : String) : List Char :=
  dropTrailingWs ((collapseWsL false (sanitizeClean name)).dropWhile isPySpace)

/-- sanitize_filename of src/core/utils.py: substitutions, forbidden-character
removal, whitespace collapse and strip, truncation at a word boundary, with
the "untitled" fallback for empty input and empty result. -/
def sanitize_filename (name : String) (maxLength : Nat := 180) : String :=
  if name.isEmpty then "untitled"
  else
    let l6 := truncateL maxLength (sanitizeWs name)
    if l6.isEmpty then "untitled" else String.mk l6

/-- slug_from_url of src/core/utils.py: the last path component with trailing
slashes removed and a trailing ".html" stripped. -/
def slug_from_url (url : String) : String :=
  if url.data.isEmpty then ""
  else
    let stripped := (url.data.reverse.dropWhile (· = '/')).reverse
    let tail := (splitOnChar '/' stripped).getLastD []
    if ".html".data.reverse.isPrefixOf tail.reverse then
      String.mk (tail.take (tail.length - 5))
    else String.mk tail

example : slug_from_url "https://x/livre-audio-gratuit-mp3/abc-def.html" = "abc-def" := by decide
example : slug_from_url "https://x/auteur/zola/" = "zola" := by decide
example : sanitize_filename "Title: Subtitle" = "TitleCOLON TOKEN Subtitle" := by decide
example : sanitize_filename "a  b_c" = "a b c" := by decide
example : sanitize_filename "" = "untitled" := by decide

/-! ## URL normalization and joining (src/app/scraper.py, src/infra/parser.py)

normalize_url removes the URL fragment via urlsplit/urlunsplit; for URLs on
which urlunsplit of urlsplit is the identity apart from the fragment (every
URL this site produces) this is exactly the text before the first '#'. -/

/-- normalize_url of src/app/scraper.py: strip the fragment. -/
def normalize_url (url : String) : String :=
  String.mk (url.data.takeWhile (· ≠ '#'))

/-- urljoin for the href shapes this site emits: absolute URLs pass through,
an empty href resolves to the base, any other relative href replaces the last
path segment of the base.  The claims never depend on relative resolution. -/
def urljoin (base url : String) : String :=
  if url.data.isEmpty then base
  else if "http://".data.isPrefixOf url.data || "https://".data.isPrefixOf url.data then url
  else String.mk ((base.data.reverse.dropWhile (· ≠ '/')).reverse ++ url.data)

example : normalize_url "http://x/a.html#frag" = "http://x/a.html" := by decide
example : normalize_url "http://x/a.html" = "http://x/a.html" := by decide

/-! ## Sorted sets (Python set() collected then sorted(...)) -/

/-- Code-point comparison used by Python sorted on str. -/
def strLe (a b : String) : Bool := decide (a.data ≤ b.data)

/-- Insertion into a sorted list. -/
def insertSorted (x : String) : List String → List String
  | [] => [x]
  | y :: ys => if strLe x y then x :: y :: ys else y :: insertSorted x ys

/-- Python sorted(set(l)): deduplicate, then sort by code points. -/
def sortedSet (l : List String) : List String :=
  l.dedup.foldr insertSorted []

/-- The cardinality len(set(l)). -/
def setCard (l : List String) : Nat := l.dedup.length

/-! ## The crawl generator iter_items (src/app/scraper.py)

The generator interacts with the site only through fetch_html plus the
parsers; a fetched document is abstracted as a PageData carrying, side by
side, what detect_page_type decides (listing or work-like: the three listing
types route to the listing walker, and work/track/unknown to work-page
parsing) and what the two families of extractors would read off the
document.  A fetch failure is Option.none.  The WorkData fields are the final
enriched values (title possibly filled in by the WordPress API, tracks after
load_more_tracks), since enrichment is an external collaborator. -/

/-- What the listing extractors read off one fetched listing page:
extract_listing_name, extract_listing_urls, find_next_page. -/
structure ListingData where
  name : Option String
  works : List String
  next : Option String
deriving Repr, DecidableEq

/-- What parse_work_page plus enrichment reads off one fetched work page:
final title/author/reader, whether tracks are non-empty after loading, and
the extracted collection child URLs ([] when is_collection_page is false or
extraction finds nothing). -/
structure WorkData where
  title : Option String
  author : Option String
  reader : Option String
  hasTracks : Bool
  collectionUrls : List String
deriving Repr, DecidableEq

/-- One fetched document, as seen through both extractor families, plus the
routing decision of detect_page_type. -/
structure PageData where
  isListing : Bool
  listing : ListingData
  work : WorkData
deriving Repr, DecidableEq

/-- One yielded AudioItem, restricted to the fields the folder logic reads:
identity, descriptive fields, and the context entries of item.extra
(collection_root, group_root, author_prefixed_collection, skip_download). -/
structure AudioItem where
  sourceUrl : String
  title : Option String
  author : Option String
  reader : Option String
  isCollective : Bool
  collectionRoot : Option String
  groupRoot : Option String
  authorPrefixed : Option String
  skipDownload : Bool
deriving Repr, DecidableEq

/-- The crawl state of iter_items: the FIFO queue, the visited set, and the
three context-propagation maps (Python dicts keyed by normalized URL). -/
structure CrawlState where
  queue : List String
  seen : List String
  collection_map : String → Option String
  group_map : String → Option String
  author_prefixed_map : String → Option String

/-- Overwriting dict assignment m[k] = v. -/
def upd (m : String → Option String) (k v : String) : String → Option String :=
  fun x => if x = k then some v else m x

/-- The initial crawl state for a list of start URLs. -/
def initState (startUrls : List String) : CrawlState :=
  ⟨startUrls, [], fun _ => none, fun _ => none, fun _ => none⟩

/-- The root folder name a collection chooses for itself and its children:
sanitize_filename(item.title or slug_from_url(item.source_url) or
"collection"). -/
def rootNameOf (url : String) (w : WorkData) : String :=
  sanitize_filename (pyOrS (w.title.getD "") (pyOrS (slug_from_url url) "collection"))

/-- One iteration of the child loop of iter_items (scraper.py lines
345-353): write the child's context-map entries (dict assignment, hence
overwriting), then enqueue the child unless already visited. -/
def addChild (root_name : String) (child_g child_ap : Option String)
    (st : CrawlState) (c : String) : CrawlState :=
  let nc := normalize_url c
  let st1 := { st with collection_map := upd st.collection_map nc root_name }
  let st2 := if truO child_g then
      { st1 with group_map := upd st1.group_map nc (child_g.getD "") }
    else st1
  let st3 := if truO child_ap then
      { st2 with author_prefixed_map := upd st2.author_prefixed_map nc (child_ap.getD "") }
    else st2
  if nc ∈ st3.seen then st3 else { st3 with queue := st3.queue ++ [nc] }

/-- The child loop of iter_items over all collection children. -/
def addChildren (root_name : String) (child_g child_ap : Option String)
    (s : CrawlState) (children : List String) : CrawlState :=
  children.foldl (addChild root_name child_g child_ap) s

/-- The work-page branch of iter_items (scraper.py lines 283-360): read the
three context maps at the normalized source URL, mark collective projects,
and for a collection compute the children's context (multi-author override,
single-author prefix, nested inheritance), write the children's map entries,
enqueue unseen children, and yield the collection root as metadata-only. -/
def processWork (s : CrawlState) (url : String) (w : WorkData) : CrawlState × AudioItem :=
  let is_collective := w.hasTracks || !w.collectionUrls.isEmpty
  let collection_root := s.collection_map (normalize_url url)
  let group_root := s.group_map (normalize_url url)
  let author_prefixed := s.author_prefixed_map (normalize_url url)
  let base : AudioItem :=
    { sourceUrl := url, title := w.title, author := w.author, reader := w.reader,
      isCollective := is_collective,
      collectionRoot := if truO collection_root then collection_root else none,
      groupRoot := if truO group_root then group_root else none,
      authorPrefixed := if truO author_prefixed then author_prefixed else none,
      skipDownload := false }
  if w.collectionUrls.isEmpty then (s, base)
  else
    let root_name := rootNameOf url w
    let is_multi := is_collective && truO w.author &&
      (pyLower (w.author.getD "") = "auteurs divers")
    let is_single := is_collective && truO w.author &&
      !truO group_root && !truO author_prefixed
    let multi_ap := "Auteurs divers - " ++ root_name
    let single_ap := sanitize_filename (w.author.getD "") ++ " - " ++ root_name
    let child_ap : Option String :=
      if is_multi then some multi_ap
      else if is_single then some single_ap
      else if truO author_prefixed then author_prefixed
      else none
    let child_g : Option String := if is_multi then none else group_root
    let item1 :=
      if is_multi then { base with authorPrefixed := some multi_ap, groupRoot := none }
      else if is_single then { base with authorPrefixed := some single_ap }
      else base
    let s' := addChildren root_name child_g child_ap s w.collectionUrls
    (s', { item1 with collectionRoot := some root_name, skipDownload := true })

/-- The page cap test of the listing walker: args.max_pages is falsy when 0.
-/
def pageCapReached (maxPages count : Nat) : Bool :=
  maxPages ≠ 0 && count ≥ maxPages

/-- group_name retry of the listing walker: extract_listing_name is consulted
again on later pages while group_name is still None. -/
def resolveGroupName (groupName : Option String) (d : ListingData) : Option String :=
  if groupName.isNone then d.name else groupName

/-- The sanitized group root of a listing page: the listing's display name,
else the page URL's slug, else "listing". -/
def listingGroupRoot (gname : Option String) (current : String) : String :=
  sanitize_filename (pyOrS (gname.getD "") (pyOrS (slug_from_url current) "listing"))

/-- One listed work of the listing walker (scraper.py lines 262-266): record
its group root (dict assignment, hence overwriting) and enqueue it unless
already visited. -/
def addListedWork (group_root : String) (st : CrawlState) (w : String) : CrawlState :=
  let nw := normalize_url w
  let st1 := { st with group_map := upd st.group_map nw group_root }
  if nw ∈ st1.seen then st1 else { st1 with queue := st1.queue ++ [nw] }

/-- The listing branch of iter_items (scraper.py lines 252-281): one call per
fetched listing page.  Writes group_map for every listed work before any of
them can be dequeued, enqueues unseen works, then follows the next-page link,
stopping on a missing link, the page cap, an already-visited page, or a
failed fetch.  The fuel bounds the pagination chain, which the source does
not otherwise bound (its cycle guard only consults the dequeued set). -/
def listingWalk (site : String → Option PageData) (maxPages : Nat) :
    Nat → CrawlState → Option String → Nat → String → ListingData →
    CrawlState × List String
  | 0, s, _, _, _, _ => (s, [])
  | fuel + 1, s, groupName, count0, current, d =>
    let count := count0 + 1
    let gname := resolveGroupName groupName d
    let group_root := listingGroupRoot gname current
    let s1 := d.works.foldl (addListedWork group_root) s
    match d.next with
    | none => (s1, [])
    | some nxt =>
      let np := urljoin current nxt
      if np.data.isEmpty then (s1, [])
      else if pageCapReached maxPages count then (s1, [])
      else if np ∈ s1.seen then (s1, [])
      else
        match site np with
        | none => (s1, [np])
        | some pd =>
          let (s2, log) := listingWalk site maxPages fuel s1 gname count np pd.listing
          (s2, np :: log)

/-- The outcome of a (fuel-bounded) run of the crawl generator: the items
yielded in order, every URL passed to fetch_html in order, the URLs that
passed the visited check when dequeued, and the final state. -/
structure CrawlOut where
  yielded : List AudioItem
  fetched : List String
  processed : List String
  state : CrawlState

/-- iter_items of src/app/scraper.py as a fuel-indexed BFS step function:
dequeue, skip if visited, fetch, route by page type.  pageFuel bounds each
listing's pagination walk, fuel the number of dequeues. -/
def iter_items (site : String → Option PageData) (maxPages pageFuel : Nat) :
    Nat → CrawlState → CrawlOut
  | 0, s => ⟨[], [], [], s⟩
  | fuel + 1, s =>
    match s.queue with
    | [] => ⟨[], [], [], s⟩
    | url :: rest =>
      let s1 := { s with queue := rest }
      if url ∈ s1.seen then iter_items site maxPages pageFuel fuel s1
      else
        let s2 := { s1 with seen := url :: s1.seen }
        match site url with
        | none =>
          let r := iter_items site maxPages pageFuel fuel s2
          ⟨r.yielded, url :: r.fetched, url :: r.processed, r.state⟩
        | some pd =>
          if pd.isListing then
            let walked := listingWalk site maxPages pageFuel s2 none 0 url pd.listing
            let r := iter_items site maxPages pageFuel fuel walked.1
            ⟨r.yielded, url :: (walked.2 ++ r.fetched), url :: r.processed, r.state⟩
          else
            let pw := processWork s2 url pd.work
            let r := iter_items site maxPages pageFuel fuel pw.1
            ⟨pw.2 :: r.yielded, url :: r.fetched, url :: r.processed, r.state⟩

/-! ## Child-URL extraction (extract_collection_urls, src/infra/parser.py)

The parsed document is abstracted to exactly the DOM queries the function
makes: the entry-content div, the station-content div with its anchors and
its optional block-loop-items anchors, every block-loop-items under
entry-content with its anchors, all anchors under entry-content, and the
article elements with their classes and first href.  Anchors are href
strings in document order. -/

/-- The station-content div: its anchor hrefs and, when present, the anchor
hrefs of its block-loop-items child. -/
structure StationData where
  anchors : List String
  block : Option (List String)
deriving Repr, DecidableEq

/-- A parsed work page as read by extract_collection_urls. -/
structure CollectionDoc where
  hasEntry : Bool
  station : Option StationData
  entryBlocks : List (List String)
  entryAnchors : List String
  articles : List (List String × Option String)
deriving Repr, DecidableEq

/-- An href counts as a candidate work link: contains the work-page path
marker and ends in ".html". -/
def isWorkHref (h : String) : Bool :=
  pyIn "/livre-audio-gratuit-mp3/" h && endsWithL ".html" h

/-- Join the work-hrefs of an anchor list and drop the page itself. -/
def workLinksOf (page_url : String) (anchors : List String) : List String :=
  ((anchors.filter isWorkHref).map (urljoin page_url)).filter (· ≠ page_url)

/-- All candidate work links in station-content (the broader region tier 1
measures coverage against). -/
def stationCandidates (d : CollectionDoc) (page_url : String) : List String :=
  match d.station with
  | none => []
  | some st => workLinksOf page_url st.anchors

/-- The tier-1 link set: candidate work links inside the dedicated
block-loop-items block of station-content. -/
def tier1Links (d : CollectionDoc) (page_url : String) : List String :=
  match d.station with
  | none => []
  | some st =>
    match st.block with
    | none => []
    | some bl => workLinksOf page_url bl

/-- The tier-1 acceptance guard: a non-empty block link set covering at least
70% of the station candidates.  The source compares len(links) >=
len(total)*0.7 in floats; for every count below 10^15 that comparison equals
the exact 10*|links| >= 7*|total|, which is what we state. -/
def tier1Guard (d : CollectionDoc) (page_url : String) : Bool :=
  !(tier1Links d page_url).dedup.isEmpty &&
    10 * setCard (tier1Links d page_url) ≥ 7 * setCard (stationCandidates d page_url)

/-- The stop-word list of the slug tokenizer. -/
def slugStop : List String :=
  ["oeuvre", "integrale", "integral", "tome", "tomes", "livre", "audio",
   "gratuit", "mp3", "et", "de", "du", "des", "la", "le", "les", "a", "au",
   "aux", "d", "l"]

/-- Tokens of the collection's own URL slug, with stop words and the
author's slug tokens removed (empty when the slug is empty). -/
def slugTokens (page_url : String) (author_slug : Option String) : List String :=
  let slug := slug_from_url page_url
  if slug.data.isEmpty then []
  else
    let tokens := (splitOnChar '-' slug.data).map String.mk
    let author_tokens : List String :=
      match author_slug with
      | none => []
      | some s => if s.data.isEmpty then [] else (splitOnChar '-' s.data).map String.mk
    tokens.filter (fun t => !t.data.isEmpty && t ∉ slugStop && t ∉ author_tokens)

/-- Does any slug token occur inside the link's slug? -/
def tokenMatch (tokens : List String) (href : String) : Bool :=
  tokens.any (fun t => pyIn t (slug_from_url href))

/-- Tiers 5 and 6: every station-content candidate, else the per-article
scan restricted to the author's class. -/
def collectionFallback (d : CollectionDoc) (page_url : String)
    (author_slug : Option String) : List String :=
  let all_links := stationCandidates d page_url
  if !all_links.isEmpty then sortedSet all_links
  else
    let links := d.articles.foldl (fun acc art =>
      if truO author_slug && ("auteur-" ++ author_slug.getD "") ∉ art.1 then acc
      else
        match art.2 with
        | none => acc
        | some href =>
          if isWorkHref href then
            let full := urljoin page_url href
            if full ≠ page_url then acc ++ [full] else acc
          else acc) []
    sortedSet links

/-- Tiers 2 to 6 of extract_collection_urls: slug-token block scoring, global
token match, the religious-text allow-list, the all-station fallback, and the
final article scan.  Evaluated only when tier 1 declined. -/
def collectionLowerTiers (d : CollectionDoc) (page_url : String)
    (author_slug : Option String) : List String :=
  let total := stationCandidates d page_url
  let tokens := slugTokens page_url author_slug
  let best :=
    if !d.entryBlocks.isEmpty && !tokens.isEmpty then
      (d.entryBlocks.foldl (fun (acc : List String × Nat) bl =>
        let block_links := (bl.filter isWorkHref).map (urljoin page_url)
        let score := (bl.filter isWorkHref).countP (tokenMatch tokens)
        if score > acc.2 && !block_links.isEmpty then (block_links, score) else acc)
        ([], 0)).1
    else []
  if !best.isEmpty && 2 * setCard best ≥ setCard total then sortedSet best
  else
    let matched :=
      if !tokens.isEmpty then
        ((d.entryAnchors.filter isWorkHref).filter (tokenMatch tokens)).map
          (urljoin page_url) |>.filter (· ≠ page_url)
      else []
    if !tokens.isEmpty && setCard matched > 10 then sortedSet matched
    else
      let slug := slug_from_url page_url
      if pyIn "bible" slug || pyIn "testament" slug then
        let bmatched :=
          ((d.entryAnchors.filter isWorkHref).filter (fun h =>
            pyIn "bible" h || pyIn "testament" h || pyIn "evangile" h)).map
            (urljoin page_url) |>.filter (· ≠ page_url)
        if !bmatched.isEmpty then sortedSet bmatched
        else collectionFallback d page_url author_slug
      else collectionFallback d page_url author_slug

/-- extract_collection_urls with the lower tiers abstracted as a thunk: the
empty-entry check, then tier 1 (the dedicated block with its coverage
guard), deferring to the thunk otherwise. -/
def extract_collection_urls_from (lower : Unit → List String)
    (d : CollectionDoc) (page_url : String) : List String :=
  if !d.hasEntry then []
  else if tier1Guard d page_url then sortedSet (tier1Links d page_url)
  else lower ()

/-- extract_collection_urls of src/infra/parser.py. -/
def extract_collection_urls (d : CollectionDoc) (page_url : String)
    (author_slug : Option String) : List String :=
  extract_collection_urls_from (fun _ => collectionLowerTiers d page_url author_slug)
    d page_url

/-! ## unique_path (src/core/utils.py) over an abstract filesystem

The filesystem is a predicate on paths; a path is a directory plus a file
name, and pathlib's stem/suffix split the name at its last dot (ignoring a
leading or trailing dot). -/

/-- A filesystem path: parent directory components plus the final name. -/
structure FsPath where
  parent : List String
  name : String
deriving Repr, DecidableEq

/-- The index of the last '.' of a name, when pathlib treats it as an
extension separator: strictly inside the name, not at position 0. -/
def extSplitIdx (l : List Char) : Option Nat :=
  match (l.reverse.findIdx? (· = '.')) with
  | none => none
  | some ri =>
    let i := l.length - 1 - ri
    if 0 < i && i < l.length - 1 then some i else none

/-- pathlib PurePath.stem of a name. -/
def path_stem (name : String) : String :=
  match extSplitIdx name.data with
  | none => name
  | some i => String.mk (name.data.take i)

/-- pathlib PurePath.suffix of a name. -/
def path_suffix (name : String) : String :=
  match extSplitIdx name.data with
  | none => ""
  | some i => String.mk (name.data.drop i)

/-- The i-th collision candidate, parent / (stem ++ " (i)" ++ suffix). -/
def verCand (base : FsPath) (i : Nat) : FsPath :=
  ⟨base.parent, path_stem base.name ++ " (" ++ toString i ++ ")" ++ path_suffix base.name⟩

/-- unique_path of src/core/utils.py: the base itself when free, else the
first free candidate among indices 1..999, else the base again. -/
def unique_path (ex : FsPath → Bool) (base : FsPath) : FsPath :=
  if ex base = false then base
  else
    match (List.range' 1 999).find? (fun i => !ex (verCand base i)) with
    | some i => verCand base i
    | none => base

example : path_stem "name.mp3" = "name" := by decide
example : path_suffix "name.mp3" = ".mp3" := by decide
example : path_suffix "a.tar.gz" = ".gz" := by decide
example : path_suffix "noext" = "" := by decide
example : path_suffix ".hidden" = "" := by decide

/-! ## The paginated track loader load_more_tracks (src/app/scraper.py)

One fetched "voir plus" page is abstracted to the tracks its fragment
contains and the next scroller URL it links; Option.none covers a failed
fetch and a missing or empty content field alike, both of which break the
loop without touching the remaining state. -/

/-- One track entry (title, download_url) as used by the loader. -/
structure TrackItem where
  title : String
  download_url : String
deriving Repr, DecidableEq

/-- The loop state of load_more_tracks: the item's tracks, the seen track
download URLs, the visited page URLs, the current scroller URL, and whether
the loop has executed a break. -/
structure LoopState where
  tracks : List TrackItem
  seenTracks : List String
  seenPages : List String
  pageCount : Nat
  loopUrl : Option String
  broke : Bool
deriving Repr, DecidableEq

/-- Python truthiness of the loop URL (None and "" are falsy). -/
def loopActive (s : LoopState) : Bool :=
  !s.broke && truO s.loopUrl && (s.loopUrl.getD "") ∉ s.seenPages

/-- One iteration body of the while loop, at current URL u: record the page,
fetch, append the unseen tracks, advance to the extracted next URL, breaking
on a failed or empty fetch or when nothing was added and no next URL
exists. -/
def loopBody (siteLoop : String → Option (List TrackItem × Option String))
    (s : LoopState) (u : String) : LoopState :=
  let s1 := { s with seenPages := u :: s.seenPages, pageCount := s.pageCount + 1 }
  match siteLoop u with
  | none => { s1 with broke := true }
  | some (newTracks, nextUrl) =>
    let step := newTracks.foldl (fun (acc : List TrackItem × List String × Nat) tr =>
        if tr.download_url ∈ acc.2.1 then acc
        else (acc.1 ++ [tr], tr.download_url :: acc.2.1, acc.2.2 + 1))
      (s1.tracks, s1.seenTracks, 0)
    let s2 := { s1 with tracks := step.1, seenTracks := step.2.1, loopUrl := nextUrl }
    if step.2.2 = 0 && !truO nextUrl then { s2 with broke := true } else s2

/-- load_more_tracks' while loop as a fuel-indexed runner: some final state
when the loop exits within the fuel, none when the fuel is exhausted with the
loop still active. -/
def load_more_tracks (siteLoop : String → Option (List TrackItem × Option String)) :
    Nat → LoopState → Option LoopState
  | 0, s => if loopActive s then none else some s
  | fuel + 1, s =>
    if loopActive s then
      load_more_tracks siteLoop fuel (loopBody siteLoop s (s.loopUrl.getD ""))
    else some s

/-- The initial loop state for a first scroller URL and already-known
tracks. -/
def initLoop (tracks : List TrackItem) (loopUrl : Option String) : LoopState :=
  ⟨tracks, tracks.map (·.download_url), [], 0, loopUrl, false⟩

/-! ## Folder path resolution (src/app/downloader_pipeline.py) -/

/-- The result of _determine_folder_paths; directories are component
lists. -/
structure FolderPaths where
  root_dir : List String
  collection_dir : Option (List String)
  item_dir : List String
deriving Repr, DecidableEq

/-- author_prefixed.split(" - ", 1)[-1] if " - " in author_prefixed else
author_prefixed: the project half of an "Author - Project" folder name. -/
def parent_project_name (ap : String) : String :=
  match dropThroughFirst " - ".data ap.data with
  | some rest => String.mk rest
  | none => ap

/-- _determine_folder_paths of src/app/downloader_pipeline.py: the decision
table over author_prefixed / single-album / group_root / bare collection,
with the nested-collection split driven by collection_root differing from
the project name inside author_prefixed. -/
def determine_folder_paths (item : AudioItem) (item_name : String)
    (output_dir : List String) : FolderPaths :=
  let collection_root := item.collectionRoot
  let group_root := item.groupRoot
  let author_prefixed := item.authorPrefixed
  let skip := item.skipDownload
  let is_single_album_at_root :=
    !truO collection_root && !truO group_root && truO item.author && !skip
  if truO author_prefixed then
    let ap := author_prefixed.getD ""
    let parent_dir := output_dir ++ [sanitize_filename ap]
    let ppn := parent_project_name ap
    let is_nested := truO collection_root && (collection_root.getD "" ≠ ppn)
    if skip && is_nested then
      let cd := parent_dir ++ [sanitize_filename (collection_root.getD "")]
      ⟨output_dir, some cd, cd⟩
    else if skip then ⟨output_dir, some parent_dir, parent_dir⟩
    else if is_nested then
      let nd := parent_dir ++ [sanitize_filename (collection_root.getD "")]
      ⟨output_dir, some nd, nd ++ [item_name]⟩
    else ⟨output_dir, some parent_dir, parent_dir ++ [item_name]⟩
  else if is_single_album_at_root then
    ⟨output_dir, none,
      output_dir ++ [sanitize_filename (item.author.getD "") ++ " - " ++ item_name]⟩
  else if truO group_root then
    let root := output_dir ++ [sanitize_filename (group_root.getD "")]
    if truO collection_root then
      let cd := root ++ [sanitize_filename (collection_root.getD "")]
      ⟨root, some cd, if skip then cd else cd ++ [item_name]⟩
    else ⟨root, none, root ++ [item_name]⟩
  else
    if truO collection_root then
      let cd := output_dir ++ [sanitize_filename (collection_root.getD "")]
      ⟨output_dir, some cd, if skip then cd else cd ++ [item_name]⟩
    else ⟨output_dir, none, output_dir ++ [item_name]⟩

/-! ## Versioned item naming (src/app/downloader_pipeline.py) -/

/-- Digits-to-Nat of a leading digit run. -/
def digitsToNat (l : List Char) : Nat :=
  l.foldl (fun n c => 10 * n + (c.toNat - '0'.toNat)) 0

/-- Modelled from the spec: extract_version_from_url is imported from
src/infra/parser.py by _build_versioned_item_name but its definition is
absent from the sources.  Per the spec, a source URL encodes a version number
through an embedded "-version-N" marker; this reads the digit run following
the first such marker. -/
def extract_version_from_url (url : String) : Option Nat :=
  match dropThroughFirst "-version-".data url.data with
  | none => none
  | some rest =>
    let digits := rest.takeWhile (·.isDigit)
    if digits.isEmpty then none else some (digitsToNat digits)

example : extract_version_from_url "https://x/nana-version-2.html" = some 2 := by decide
example : extract_version_from_url "https://x/nana.html" = none := by decide

/-- _build_versioned_item_name of src/app/downloader_pipeline.py: sanitized
title (or slug, or "work"), with " (Version N - Reader)" appended when the
URL carries a truthy version number, the reader part omitted when the item
has no reader. -/
def build_versioned_item_name (item : AudioItem) : String :=
  let base_title := pyOrS (item.title.getD "") (pyOrS (slug_from_url item.sourceUrl) "work")
  let base_name := sanitize_filename base_title
  match extract_version_from_url item.sourceUrl with
  | none => base_name
  | some n =>
    if n = 0 then base_name
    else
      let reader_suffix := if truO item.reader then " - " ++ item.reader.getD "" else ""
      base_name ++ " (Version " ++ toString n ++ reader_suffix ++ ")"

/-! ## Properties of the sanitize_filename pipeline -/

/-- Is the first character whitespace? -/
def headIsSpace (l : List Char) : Bool :=
  match l with
  | [] => false
  | c :: _ => isPySpace c

/-- Is the last character whitespace? -/
def lastIsSpace : List Char → Bool
  | [] => false
  | [c] => isPySpace c
  | _ :: c :: rest => lastIsSpace (c :: rest)

/-- No two adjacent whitespace characters. -/
def noTwoSpaces : List Char → Bool
  | [] => true
  | [_] => true
  | a :: b :: rest => !(isPySpace a && isPySpace b) && noTwoSpaces (b :: rest)

@[simp] theorem noTwoSpaces_nil : noTwoSpaces [] = true := rfl

@[simp] theorem noTwoSpaces_single (a : Char) : noTwoSpaces [a] = true := rfl

@[simp] theorem noTwoSpaces_cons2 (a b : Char) (r : List Char) :
    noTwoSpaces (a :: b :: r) = (!(isPySpace a && isPySpace b) && noTwoSpaces (b :: r)) := rfl

@[simp] theorem collapseWsL_nil (b : Bool) : collapseWsL b [] = [] := rfl

theorem collapseWsL_cons (b : Bool) (c : Char) (l : List Char) :
    collapseWsL b (c :: l) =
      if isPySpace c then
        (if b then collapseWsL true l else ' ' :: collapseWsL true l)
      else c :: collapseWsL false l := rfl

@[simp] theorem dropTrailingWs_nil : dropTrailingWs [] = [] := rfl

theorem dropTrailingWs_cons (c : Char) (l : List Char) :
    dropTrailingWs (c :: l) =
      (if (dropTrailingWs l).isEmpty && isPySpace c then [] else c :: dropTrailingWs l) := rfl

@[simp] theorem takeBeforeLastSpace_nil : takeBeforeLastSpace [] = [] := rfl

theorem takeBeforeLastSpace_cons (c : Char) (l : List Char) :
    takeBeforeLastSpace (c :: l) =
      (if ' ' ∈ l then c :: takeBeforeLastSpace l else []) := rfl

@[simp] theorem headIsSpace_nil : headIsSpace [] = false := rfl

@[simp] theorem headIsSpace_cons (c : Char) (l : List Char) :
    headIsSpace (c :: l) = isPySpace c := rfl

@[simp] theorem lastIsSpace_nil : lastIsSpace [] = false := rfl

theorem lastIsSpace_cons (c : Char) (l : List Char) :
    lastIsSpace (c :: l) = if l.isEmpty then isPySpace c else lastIsSpace l := by
  cases l with
  | nil => simp [lastIsSpace]
  | cons b t => simp [lastIsSpace]

theorem bool_split (b : Bool) : b = false ∨ b = true := by
  cases b
  · exact Or.inl rfl
  · exact Or.inr rfl

theorem noTwoSpaces_tail {a : Char} {l : List Char}
    (h : noTwoSpaces (a :: l) = true) : noTwoSpaces l = true := by
  cases l with
  | nil => rfl
  | cons b t =>
    rw [noTwoSpaces_cons2, Bool.and_eq_true] at h
    exact h.2

theorem noTwoSpaces_cons_of_head {a : Char} {l : List Char}
    (h : noTwoSpaces l = true) (hh : headIsSpace l = false) :
    noTwoSpaces (a :: l) = true := by
  cases l with
  | nil => rfl
  | cons b t =>
    rw [headIsSpace_cons] at hh
    rw [noTwoSpaces_cons2, Bool.and_eq_true]
    exact ⟨by simp [hh], h⟩

theorem noTwoSpaces_cons_of_nonspace {a : Char} {l : List Char}
    (h : noTwoSpaces l = true) (ha : isPySpace a = false) :
    noTwoSpaces (a :: l) = true := by
  cases l with
  | nil => rfl
  | cons b t =>
    rw [noTwoSpaces_cons2, Bool.and_eq_true]
    exact ⟨by simp [ha], h⟩

theorem headIsSpace_collapse_true (l : List Char) :
    headIsSpace (collapseWsL true l) = false := by
  induction l with
  | nil => rfl
  | cons c rest ih =>
    rw [collapseWsL_cons]
    rcases bool_split (isPySpace c) with hc | hc
    · rw [if_neg (by simp [hc]), headIsSpace_cons]; exact hc
    · rw [if_pos hc, if_pos rfl]; exact ih

theorem noTwoSpaces_collapse (b : Bool) (l : List Char) :
    noTwoSpaces (collapseWsL b l) = true := by
  induction l generalizing b with
  | nil => rfl
  | cons c rest ih =>
    rw [collapseWsL_cons]
    rcases bool_split (isPySpace c) with hc | hc
    · rw [if_neg (by simp [hc])]
      exact noTwoSpaces_cons_of_nonspace (ih false) hc
    · rw [if_pos hc]
      cases b with
      | true => exact ih true
      | false =>
        rw [if_neg (by simp)]
        exact noTwoSpaces_cons_of_head (ih true) (headIsSpace_collapse_true rest)

theorem mem_collapse {c : Char} {b : Bool} {l : List Char}
    (h : c ∈ collapseWsL b l) : c ∈ l ∨ c = ' ' := by
  induction l generalizing b with
  | nil => simp at h
  | cons d rest ih =>
    rw [collapseWsL_cons] at h
    rcases bool_split (isPySpace d) with hd | hd
    · rw [if_neg (by simp [hd])] at h
      rcases List.mem_cons.mp h with h1 | h1
      · exact Or.inl (h1 ▸ List.mem_cons_self _ _)
      · rcases ih h1 with h2 | h2
        · exact Or.inl (List.mem_cons_of_mem _ h2)
        · exact Or.inr h2
    · rw [if_pos hd] at h
      cases b with
      | true =>
        rcases ih (by simpa using h) with h1 | h1
        · exact Or.inl (List.mem_cons_of_mem _ h1)
        · exact Or.inr h1
      | false =>
        rw [if_neg (by simp)] at h
        rcases List.mem_cons.mp h with h1 | h1
        · exact Or.inr h1
        · rcases ih h1 with h2 | h2
          · exact Or.inl (List.mem_cons_of_mem _ h2)
          · exact Or.inr h2

theorem wsOnly_collapse {c : Char} {b : Bool} {l : List Char}
    (h : c ∈ collapseWsL b l) (hs : isPySpace c = true) : c = ' ' := by
  induction l generalizing b with
  | nil => simp at h
  | cons d rest ih =>
    rw [collapseWsL_cons] at h
    rcases bool_split (isPySpace d) with hd | hd
    · rw [if_neg (by simp [hd])] at h
      rcases List.mem_cons.mp h with h1 | h1
      · rw [h1] at hs; rw [hs] at hd; cases hd
      · exact ih h1
    · rw [if_pos hd] at h
      cases b with
      | true => exact ih (by simpa using h)
      | false =>
        rw [if_neg (by simp)] at h
        rcases List.mem_cons.mp h with h1 | h1
        · exact h1
        · exact ih h1

theorem noTwoSpaces_append_left {l1 l2 : List Char}
    (h : noTwoSpaces (l1 ++ l2) = true) : noTwoSpaces l1 = true := by
  induction l1 with
  | nil => rfl
  | cons a t ih =>
    cases t with
    | nil => rfl
    | cons b t' =>
      rw [List.cons_append, List.cons_append, noTwoSpaces_cons2, Bool.and_eq_true] at h
      rw [noTwoSpaces_cons2, Bool.and_eq_true]
      refine ⟨h.1, ?_⟩
      exact ih (by rw [List.cons_append]; exact h.2)

theorem noTwoSpaces_append_right {l1 l2 : List Char}
    (h : noTwoSpaces (l1 ++ l2) = true) : noTwoSpaces l2 = true := by
  induction l1 with
  | nil => simpa using h
  | cons a t ih => exact ih (noTwoSpaces_tail (by simpa using h))

theorem noTwoSpaces_isPrefix {l1 l2 : List Char} (hp : l1 <+: l2)
    (h : noTwoSpaces l2 = true) : noTwoSpaces l1 = true := by
  rcases hp with ⟨t, ht⟩
  exact noTwoSpaces_append_left (ht ▸ h)

theorem noTwoSpaces_dropWhile {p : Char → Bool} {l : List Char}
    (h : noTwoSpaces l = true) : noTwoSpaces (l.dropWhile p) = true := by
  have hsplit : l.takeWhile p ++ l.dropWhile p = l :=
    List.takeWhile_append_dropWhile p l
  exact @noTwoSpaces_append_right (l.takeWhile p) (l.dropWhile p)
    (by rw [hsplit]; exact h)

theorem headIsSpace_dropWhile (l : List Char) :
    headIsSpace (l.dropWhile isPySpace) = false := by
  induction l with
  | nil => rfl
  | cons c rest ih =>
    rw [List.dropWhile_cons]
    rcases bool_split (isPySpace c) with hc | hc
    · rw [if_neg (by simp [hc]), headIsSpace_cons]; exact hc
    · rw [if_pos hc]; exact ih

theorem mem_dropWhile {c : Char} {p : Char → Bool} {l : List Char}
    (h : c ∈ l.dropWhile p) : c ∈ l := by
  induction l with
  | nil => simp at h
  | cons d rest ih =>
    rw [List.dropWhile_cons] at h
    rcases bool_split (p d) with hd | hd
    · rw [if_neg (by simp [hd])] at h
      exact h
    · rw [if_pos hd] at h
      exact List.mem_cons_of_mem _ (ih h)

theorem dropTrailingWs_isPrefix (l : List Char) : dropTrailingWs l <+: l := by
  induction l with
  | nil => exact List.prefix_refl _
  | cons c rest ih =>
    rw [dropTrailingWs_cons]
    rcases bool_split ((dropTrailingWs rest).isEmpty && isPySpace c) with hb | hb
    · rw [if_neg (by simp [hb])]
      rcases ih with ⟨t, ht⟩
      exact ⟨t, by rw [List.cons_append, ht]⟩
    · rw [if_pos hb]
      exact List.nil_prefix

theorem lastIsSpace_dropTrailingWs (l : List Char) :
    lastIsSpace (dropTrailingWs l) = false := by
  induction l with
  | nil => rfl
  | cons c rest ih =>
    rw [dropTrailingWs_cons]
    rcases bool_split ((dropTrailingWs rest).isEmpty && isPySpace c) with hb | hb
    · rw [if_neg (by simp [hb]), lastIsSpace_cons]
      rcases bool_split (dropTrailingWs rest).isEmpty with he | he
      · rw [if_neg (by simp [he])]; exact ih
      · rw [if_pos he]
        rcases bool_split (isPySpace c) with hc | hc
        · exact hc
        · rw [he, hc] at hb; cases hb
    · rw [if_pos hb]; rfl

theorem takeBeforeLastSpace_isPrefix (l : List Char) : takeBeforeLastSpace l <+: l := by
  induction l with
  | nil => exact List.prefix_refl _
  | cons c rest ih =>
    rw [takeBeforeLastSpace_cons]
    by_cases hm : ' ' ∈ rest
    · rw [if_pos hm]
      rcases ih with ⟨t, ht⟩
      exact ⟨t, by rw [List.cons_append, ht]⟩
    · rw [if_neg hm]
      exact List.nil_prefix

theorem takeBeforeLastSpace_last {l : List Char} (h : noTwoSpaces l = true) :
    lastIsSpace (takeBeforeLastSpace l) = false := by
  induction l with
  | nil => rfl
  | cons c rest ih =>
    rw [takeBeforeLastSpace_cons]
    by_cases hm : ' ' ∈ rest
    · rw [if_pos hm, lastIsSpace_cons]
      rcases bool_split (takeBeforeLastSpace rest).isEmpty with he | he
      · rw [if_neg (by simp [he])]
        exact ih (noTwoSpaces_tail h)
      · rw [if_pos he]
        cases rest with
        | nil => simp at hm
        | cons c' r' =>
          rw [takeBeforeLastSpace_cons] at he
          by_cases hm' : ' ' ∈ r'
          · rw [if_pos hm'] at he; simp at he
          · have hc' : c' = ' ' := by
              rcases List.mem_cons.mp hm with h1 | h1
              · exact h1.symm
              · exact absurd h1 hm'
            rw [noTwoSpaces_cons2, Bool.and_eq_true] at h
            have hpair := h.1
            rw [hc'] at hpair
            have hsp : isPySpace ' ' = true := by decide
            rw [hsp] at hpair
            rcases bool_split (isPySpace c) with hc | hc
            · exact hc
            · rw [hc] at hpair; cases hpair
    · rw [if_neg hm]; rfl

theorem headIsSpace_isPrefix {l1 l2 : List Char} (hp : l1 <+: l2)
    (h : headIsSpace l2 = false) : headIsSpace l1 = false := by
  cases l1 with
  | nil => rfl
  | cons a t =>
    rcases hp with ⟨s, hs⟩
    rw [← hs, List.cons_append, headIsSpace_cons] at h
    rw [headIsSpace_cons]
    exact h

theorem mem_of_isPrefix {c : Char} {l1 l2 : List Char} (hp : l1 <+: l2)
    (h : c ∈ l1) : c ∈ l2 :=
  hp.sublist.subset h

theorem lastIsSpace_mem {l : List Char} (h : lastIsSpace l = true) :
    ∃ c ∈ l, isPySpace c = true := by
  induction l with
  | nil => simp at h
  | cons a t ih =>
    cases t with
    | nil => exact ⟨a, List.mem_cons_self _ _, h⟩
    | cons b t' =>
      rcases ih h with ⟨c, hc, hcs⟩
      exact ⟨c, List.mem_cons_of_mem _ hc, hcs⟩

theorem sanitizeWs_noTwo (name : String) : noTwoSpaces (sanitizeWs name) = true :=
  noTwoSpaces_isPrefix (dropTrailingWs_isPrefix _)
    (noTwoSpaces_dropWhile (noTwoSpaces_collapse false _))

theorem sanitizeWs_head (name : String) : headIsSpace (sanitizeWs name) = false :=
  headIsSpace_isPrefix (dropTrailingWs_isPrefix _) (headIsSpace_dropWhile _)

theorem sanitizeWs_last (name : String) : lastIsSpace (sanitizeWs name) = false :=
  lastIsSpace_dropTrailingWs _

theorem sanitizeWs_forbidden {c : Char} {name : String} (h : c ∈ sanitizeWs name) :
    isForbiddenChar c = false := by
  have h1 : c ∈ collapseWsL false (sanitizeClean name) :=
    mem_dropWhile (mem_of_isPrefix (dropTrailingWs_isPrefix _) h)
  rcases mem_collapse h1 with h2 | h2
  · have := (List.mem_filter.mp h2).2
    simpa using this
  · rw [h2]; decide

theorem sanitizeWs_wsOnly {c : Char} {name : String} (h : c ∈ sanitizeWs name)
    (hs : isPySpace c = true) : c = ' ' := by
  have h1 : c ∈ collapseWsL false (sanitizeClean name) :=
    mem_dropWhile (mem_of_isPrefix (dropTrailingWs_isPrefix _) h)
  exact wsOnly_collapse h1 hs

theorem truncateL_isPrefix (m : Nat) (l : List Char) : truncateL m l <+: l := by
  rw [truncateL]
  by_cases hlen : l.length > m
  · rw [if_pos hlen]
    by_cases hsp : ' ' ∈ l.take m
    · rw [if_pos hsp]
      exact (takeBeforeLastSpace_isPrefix _).trans ( List.take_prefix _ _)
    · rw [if_neg hsp]
      exact List.take_prefix _ _
  · rw [if_neg hlen]

theorem truncateL_length {m : Nat} {l : List Char} (h : l.length > m) :
    (truncateL m l).length ≤ m := by
  rw [truncateL, if_pos h]
  have htake : (l.take m).length = m := by
    rw [List.length_take]
    exact Nat.min_eq_left (Nat.le_of_lt h)
  by_cases hsp : ' ' ∈ l.take m
  · rw [if_pos hsp]
    calc (takeBeforeLastSpace (l.take m)).length
        ≤ (l.take m).length := (takeBeforeLastSpace_isPrefix _).length_le
      _ ≤ m := le_of_eq htake
  · rw [if_neg hsp]
    exact le_of_eq htake

theorem truncateL_last {m : Nat} {l : List Char}
    (hnoTwo : noTwoSpaces l = true)
    (hwsOnly : ∀ c ∈ l, isPySpace c = true → c = ' ')
    (hlast : lastIsSpace l = false) :
    lastIsSpace (truncateL m l) = false := by
  rw [truncateL]
  by_cases hlen : l.length > m
  · rw [if_pos hlen]
    by_cases hsp : ' ' ∈ l.take m
    · rw [if_pos hsp]
      exact takeBeforeLastSpace_last (noTwoSpaces_isPrefix ( List.take_prefix _ _) hnoTwo)
    · rw [if_neg hsp]
      rcases bool_split (lastIsSpace (l.take m)) with hv | hv
      · exact hv
      · rcases lastIsSpace_mem hv with ⟨c, hc, hcs⟩
        have : c = ' ' := hwsOnly c (mem_of_isPrefix ( List.take_prefix _ _) hc) hcs
        rw [this] at hc
        exact absurd hc hsp
  · rw [if_neg hlen]
    exact hlast

/-- The complete property bundle for sanitize_filename: non-empty result, no
forbidden characters, no leading or trailing whitespace, no adjacent
whitespace, and (when the "untitled" fallback fits) the length cap. -/
theorem sanitize_filename_props (name : String) (m : Nat) :
    sanitize_filename name m ≠ "" ∧
    (sanitize_filename name m).data.all (fun c => !isForbiddenChar c) = true ∧
    headIsSpace (sanitize_filename name m).data = false ∧
    lastIsSpace (sanitize_filename name m).data = false ∧
    noTwoSpaces (sanitize_filename name m).data = true ∧
    (8 ≤ m → (sanitize_filename name m).length ≤ m) := by
  rw [sanitize_filename]
  by_cases h0 : name.isEmpty
  · rw [if_pos h0]
    refine ⟨by decide, by decide, by decide, by decide, by decide, fun h8 => ?_⟩
    exact h8
  · rw [if_neg h0]
    simp only []
    by_cases h6 : (truncateL m (sanitizeWs name)).isEmpty
    · rw [if_pos h6]
      refine ⟨by decide, by decide, by decide, by decide, by decide, fun h8 => ?_⟩
      exact h8
    · rw [if_neg h6]
      have hpre : truncateL m (sanitizeWs name) <+: sanitizeWs name := truncateL_isPrefix _ _
      have hdata : (String.mk (truncateL m (sanitizeWs name))).data
          = truncateL m (sanitizeWs name) := rfl
      constructor
      · intro hcontra
        have : truncateL m (sanitizeWs name) = ([] : List Char) := by
          have := congrArg String.data hcontra
          simpa using this
        rw [this] at h6
        exact h6 rfl
      refine ⟨?_, ?_, ?_, ?_, ?_⟩
      · rw [hdata, List.all_eq_true]
        intro c hc
        have := sanitizeWs_forbidden (mem_of_isPrefix hpre hc)
        simp [this]
      · rw [hdata]
        exact headIsSpace_isPrefix hpre (sanitizeWs_head name)
      · rw [hdata]
        exact truncateL_last (sanitizeWs_noTwo name)
          (fun c hc hs => sanitizeWs_wsOnly hc hs) (sanitizeWs_last name)
      · rw [hdata]
        exact noTwoSpaces_isPrefix hpre (sanitizeWs_noTwo name)
      · intro _
        show (truncateL m (sanitizeWs name)).length ≤ m
        by_cases hlen : (sanitizeWs name).length > m
        · exact truncateL_length hlen
        · rw [truncateL, if_neg hlen]
          exact Nat.le_of_not_lt hlen

/-- sanitize_filename never returns the empty string (used for the Python
truthiness of folder names built from it). -/
theorem sanitize_filename_ne_empty (name : String) (m : Nat) :
    sanitize_filename name m ≠ "" :=
  (sanitize_filename_props name m).1

/-! ## Claims C6, C10: sanitize_filename -/

/-- C6: the claim says sanitize_filename maps "Title: Subtitle" to
"Title_ Subtitle".  The code evaluates to "TitleCOLON TOKEN Subtitle"
instead: the underscore-to-space substitution runs while the placeholder
COLON_TOKEN is in the string and mangles it to "COLON TOKEN", so the final
placeholder-to-underscore substitution never fires and the placeholder text
leaks into the output, contradicting the function's own docstring
("Replaces colons with underscores"). -/
theorem C6_colon_token_bug :
    sanitize_filename "Title: Subtitle" = "TitleCOLON TOKEN Subtitle" ∧
    sanitize_filename "Title: Subtitle" ≠ "Title_ Subtitle" := by
  constructor
  · decide
  · decide

/-- C10: for every input string, sanitize_filename (at the default
max_length 180) returns a non-empty string of length at most 180 with no
filesystem-forbidden character, no leading or trailing whitespace, and no
two adjacent whitespace characters. -/
theorem C10_sanitize_wellformed (s : String) :
    sanitize_filename s ≠ "" ∧
    (sanitize_filename s).length ≤ 180 ∧
    (sanitize_filename s).data.all (fun c => !isForbiddenChar c) = true ∧
    headIsSpace (sanitize_filename s).data = false ∧
    lastIsSpace (sanitize_filename s).data = false ∧
    noTwoSpaces (sanitize_filename s).data = true := by
  obtain ⟨h1, h2, h3, h4, h5, h6⟩ := sanitize_filename_props s 180
  exact ⟨h1, h6 (by omega), h2, h3, h4, h5⟩

/-! ## Claim C7: version disambiguation -/

theorem data_isEmpty_false {t : String} (h : t ≠ "") : t.data.isEmpty = false := by
  cases t with
  | mk l =>
    cases l with
    | nil => exact absurd rfl h
    | cons c r => rfl

theorem append_ne_left {a b : String} (hb : 0 < b.length) : a ++ b ≠ a := by
  intro h
  have := congrArg String.length h
  rw [String.length_append] at this
  omega

/-- C7: for two items sharing a truthy title, where exactly one source URL
encodes a (non-zero) version number, the resolved folder names differ: the
versioned one is the sanitized title with " (Version N - Reader)" appended
(reader omitted when absent), the other is the bare sanitized title. -/
theorem C7_version_disambiguation (i1 i2 : AudioItem) (t : String) (n : Nat)
    (ht1 : i1.title = some t) (ht2 : i2.title = some t) (htne : t ≠ "")
    (hv1 : extract_version_from_url i1.sourceUrl = some n) (hn : n ≠ 0)
    (hv2 : extract_version_from_url i2.sourceUrl = none) :
    build_versioned_item_name i2 = sanitize_filename t ∧
    build_versioned_item_name i1 =
      sanitize_filename t ++ " (Version " ++ toString n ++
        (if truO i1.reader then " - " ++ i1.reader.getD "" else "") ++ ")" ∧
    (truO i1.reader = false →
      build_versioned_item_name i1 =
        sanitize_filename t ++ " (Version " ++ toString n ++ ")") ∧
    build_versioned_item_name i1 ≠ build_versioned_item_name i2 := by
  have hbase1 : pyOrS (i1.title.getD "") (pyOrS (slug_from_url i1.sourceUrl) "work") = t := by
    rw [ht1]
    show pyOrS t _ = t
    rw [pyOrS, if_neg (by rw [data_isEmpty_false htne]; exact Bool.false_ne_true)]
  have hbase2 : pyOrS (i2.title.getD "") (pyOrS (slug_from_url i2.sourceUrl) "work") = t := by
    rw [ht2]
    show pyOrS t _ = t
    rw [pyOrS, if_neg (by rw [data_isEmpty_false htne]; exact Bool.false_ne_true)]
  have h2 : build_versioned_item_name i2 = sanitize_filename t := by
    rw [build_versioned_item_name, hv2, hbase2]
  have h1 : build_versioned_item_name i1 =
      sanitize_filename t ++ " (Version " ++ toString n ++
        (if truO i1.reader then " - " ++ i1.reader.getD "" else "") ++ ")" := by
    rw [build_versioned_item_name, hv1, hbase1]
    simp only [if_neg hn]
  refine ⟨h2, h1, ?_, ?_⟩
  · intro hr
    rw [h1, hr]
    simp [String.append_assoc]
  · rw [h1, h2]
    rw [String.append_assoc, String.append_assoc, String.append_assoc]
    apply append_ne_left
    rw [String.length_append, String.length_append, String.length_append]
    have : (" (Version " : String).length = 10 := by decide
    omega

/-- The versioned re-release used as the C7 witness. -/
def itemC7v : AudioItem :=
  ⟨"https://x/nana-version-2.html", some "Nana", none, some "Rene Depasse",
   false, none, none, none, false⟩

/-- The plain release used as the C7 witness. -/
def itemC7p : AudioItem :=
  ⟨"https://x/nana.html", some "Nana", none, none, false, none, none, none, false⟩

theorem C7_witness :
    build_versioned_item_name itemC7v = "Nana (Version 2 - Rene Depasse)" ∧
    build_versioned_item_name itemC7p = "Nana" ∧
    build_versioned_item_name itemC7v ≠ build_versioned_item_name itemC7p := by
  have h := C7_version_disambiguation itemC7v itemC7p "Nana" 2 rfl rfl
    (by decide) (by decide) (by decide) (by decide)
  exact ⟨by decide, by decide, h.2.2.2⟩

/-! ## Claim C4: tier-1 short circuit in extract_collection_urls -/

/-- C4: when the dedicated block-loop-items block inside station-content
yields a non-empty candidate set covering at least 70% of the station-content
candidates, extract_collection_urls returns exactly that sorted set, and the
result does not depend on the lower tiers at all (they are never
evaluated): the run with the lower tiers replaced by an arbitrary function
returns the same thing. -/
theorem C4_tier1_short_circuit (d : CollectionDoc) (page_url : String)
    (author_slug : Option String) (lower : Unit → List String)
    (hE : d.hasEntry = true)
    (hne : (tier1Links d page_url).dedup ≠ [])
    (hcov : 10 * setCard (tier1Links d page_url) ≥
      7 * setCard (stationCandidates d page_url)) :
    extract_collection_urls_from lower d page_url = sortedSet (tier1Links d page_url) ∧
    extract_collection_urls d page_url author_slug = sortedSet (tier1Links d page_url) := by
  have hiE : (tier1Links d page_url).dedup.isEmpty = false := by
    cases h : (tier1Links d page_url).dedup with
    | nil => exact absurd h hne
    | cons a t => rfl
  have hg : tier1Guard d page_url = true := by
    rw [tier1Guard, hiE]
    simp [hcov]
  constructor
  · rw [extract_collection_urls_from, if_neg (by rw [hE]; simp), if_pos hg]
  · rw [extract_collection_urls, extract_collection_urls_from,
      if_neg (by rw [hE]; simp), if_pos hg]

/-- The concrete document of the C4 witness: a station-content block whose
block-loop-items holds all three candidate links. -/
def docC4 : CollectionDoc :=
  { hasEntry := true,
    station := some
      ⟨["https://www.litteratureaudio.com/livre-audio-gratuit-mp3/c.html",
        "https://www.litteratureaudio.com/livre-audio-gratuit-mp3/a.html",
        "https://www.litteratureaudio.com/livre-audio-gratuit-mp3/b.html"],
       some
        ["https://www.litteratureaudio.com/livre-audio-gratuit-mp3/c.html",
         "https://www.litteratureaudio.com/livre-audio-gratuit-mp3/a.html",
         "https://www.litteratureaudio.com/livre-audio-gratuit-mp3/b.html"]⟩,
    entryBlocks := [], entryAnchors := [], articles := [] }

/-- The collection page URL of the C4 witness. -/
def pageC4 : String := "https://www.litteratureaudio.com/livre-audio-gratuit-mp3/coll.html"

set_option maxRecDepth 8192 in
theorem C4_witness :
    extract_collection_urls docC4 pageC4 none = sortedSet (tier1Links docC4 pageC4) ∧
    extract_collection_urls docC4 pageC4 none =
      ["https://www.litteratureaudio.com/livre-audio-gratuit-mp3/a.html",
       "https://www.litteratureaudio.com/livre-audio-gratuit-mp3/b.html",
       "https://www.litteratureaudio.com/livre-audio-gratuit-mp3/c.html"] := by
  refine ⟨(C4_tier1_short_circuit docC4 pageC4 none
    (fun _ => []) (by decide) (by decide) (by decide)).2, by decide⟩

theorem find?_some_explicit {α : Type} (p : α → Bool) (a : α) (l : List α)
    (h : l.find? p = some a) : p a = true :=
  List.find?_some h

/-! ## Claim C8: filename collision resolution (unique_path) -/

/-- C8, amended: when the base path is free it is returned as is; when the
base exists and some candidate index in 1..999 is free, the result is one of
the " (i)" candidates and does not exist.  (The claim as stated fails when
base and all 999 candidates exist: the loop gives up and returns the
existing base, see the counterexample.) -/
theorem C8_unique_path_amended (ex : FsPath → Bool) (base : FsPath) :
    (ex base = false → unique_path ex base = base) ∧
    (ex base = true →
      (∃ i ∈ List.range' 1 999, ex (verCand base i) = false) →
      ex (unique_path ex base) = false ∧
      ∃ i ∈ List.range' 1 999, unique_path ex base = verCand base i) := by
  constructor
  · intro h
    rw [unique_path, if_pos h]
  · intro hex hfree
    have hne : ¬(ex base = false) := by simp [hex]
    have hsome : ((List.range' 1 999).find? (fun i => !ex (verCand base i))).isSome := by
      rw [List.find?_isSome]
      rcases hfree with ⟨i, hi, hfi⟩
      exact ⟨i, hi, by rw [hfi]; rfl⟩
    cases hfind : (List.range' 1 999).find? (fun i => !ex (verCand base i)) with
    | none => rw [hfind] at hsome; cases hsome
    | some i =>
      have hres : unique_path ex base = verCand base i := by
        rw [unique_path, if_neg hne, hfind]
      have hp := find?_some_explicit (fun j => !ex (verCand base j)) i _ hfind
      simp only [] at hp
      have hmem : i ∈ List.range' 1 999 := List.mem_of_find?_eq_some hfind
      refine ⟨?_, i, hmem, hres⟩
      rw [hres]
      cases h : ex (verCand base i) with
      | false => rfl
      | true => rw [h] at hp; cases hp

/-- The fully-occupied filesystem of the C8 counterexample. -/
def exAllC8 : FsPath → Bool := fun _ => true

/-- The base path of the C8 counterexample and witness. -/
def baseC8 : FsPath := ⟨["out"], "name.mp3"⟩

/-- C8, counterexample to the claim as stated: when the base and every
" (1)".." (999)" candidate exist, unique_path returns the base itself, which
exists, so the resolved write target is an existing path. -/
theorem C8_cex :
    unique_path exAllC8 baseC8 = baseC8 ∧ exAllC8 (unique_path exAllC8 baseC8) = true := by
  have hf : (List.range' 1 999).find? (fun i => !exAllC8 (verCand baseC8 i)) = none :=
    List.find?_eq_none.mpr (fun x _ => by rw [exAllC8]; simp)
  constructor
  · rw [unique_path, if_neg (by rw [exAllC8]; simp), hf]
  · rfl

/-- The one-file filesystem of the C8 witness. -/
def ex1C8 : FsPath → Bool := fun p => decide (p = baseC8)

theorem C8_witness :
    ex1C8 baseC8 = true ∧
    ex1C8 (unique_path ex1C8 baseC8) = false ∧
    (∃ i ∈ List.range' 1 999, unique_path ex1C8 baseC8 = verCand baseC8 i) ∧
    unique_path ex1C8 baseC8 = ⟨["out"], "name (1).mp3"⟩ := by
  have h := (C8_unique_path_amended ex1C8 baseC8).2 (by decide)
    ⟨1, by decide, by decide⟩
  exact ⟨by decide, h.1, h.2, by decide⟩

/-! ## Claim C9: termination of the paginated track loader -/

/-- The next scroller URL a fetch result advances to. -/
def nextOf (r : Option (List TrackItem × Option String)) : Option String :=
  match r with
  | none => none
  | some (_, nxt) => nxt

theorem load_more_tracks_inactive (siteLoop : String → Option (List TrackItem × Option String))
    {s : LoopState} (h : loopActive s = false) (fuel : Nat) :
    load_more_tracks siteLoop fuel s = some s := by
  cases fuel with
  | zero => rw [load_more_tracks, if_neg (by simp [h])]
  | succ n => rw [load_more_tracks, if_neg (by simp [h])]

theorem loopActive_true {s : LoopState} {u : String}
    (hb : s.broke = false) (hu : s.loopUrl = some u) (hne : u ≠ "")
    (hmem : u ∉ s.seenPages) : loopActive s = true := by
  have h1 : truO (some u) = true := by
    rw [truO, data_isEmpty_false hne]
    rfl
  rw [loopActive, hb, hu, Option.getD_some, h1, decide_eq_true hmem]
  rfl

theorem loopBody_empty_next (siteLoop : String → Option (List TrackItem × Option String))
    (s : LoopState) (u v : String)
    (hsite : siteLoop u = some ([], some v)) (hv : v ≠ "") :
    loopBody siteLoop s u =
      { s with seenPages := u :: s.seenPages, pageCount := s.pageCount + 1,
               loopUrl := some v } := by
  cases s with
  | mk tr st sp pc lu bk =>
    rw [loopBody, hsite]
    have htr : truO (some v) = true := by
      rw [truO, data_isEmpty_false hv]
      rfl
    simp only [htr, List.foldl_nil, Bool.not_true, Bool.and_false, Bool.false_and,
      if_false, Bool.and_true, Bool.true_and]
    rfl

/-- The chain-of-fresh-URLs site of the C9 counterexample: every page is
fetched successfully, contains no tracks, and links a strictly longer next
page URL. -/
def siteC9 : String → Option (List TrackItem × Option String) :=
  fun u => some ([], some (u ++ "x"))

theorem append_x_ne_empty (u : String) : u ++ "x" ≠ "" := by
  intro hcontra
  have h := congrArg String.length hcontra
  rw [String.length_append] at h
  have h1 : ("x" : String).length = 1 := rfl
  have h0 : ("" : String).length = 0 := rfl
  rw [h1, h0] at h
  omega

theorem C9_cex_aux : ∀ (fuel : Nat) (s : LoopState) (u : String),
    s.broke = false → s.loopUrl = some u → u ≠ "" →
    (∀ v ∈ s.seenPages, v.length < u.length) →
    load_more_tracks siteC9 fuel s = none := by
  intro fuel
  induction fuel with
  | zero =>
    intro s u hb hu hne hlen
    have hmem : u ∉ s.seenPages := fun hm => absurd (hlen u hm) (lt_irrefl _)
    rw [load_more_tracks, if_pos (loopActive_true hb hu hne hmem)]
  | succ n ih =>
    intro s u hb hu hne hlen
    have hmem : u ∉ s.seenPages := fun hm => absurd (hlen u hm) (lt_irrefl _)
    rw [load_more_tracks, if_pos (loopActive_true hb hu hne hmem)]
    have hgd : s.loopUrl.getD "" = u := by rw [hu]; rfl
    rw [hgd, loopBody_empty_next siteC9 s u (u ++ "x") rfl (append_x_ne_empty u)]
    refine ih ⟨s.tracks, s.seenTracks, u :: s.seenPages, s.pageCount + 1,
      some (u ++ "x"), s.broke⟩ (u ++ "x") hb rfl (append_x_ne_empty u) ?_
    intro v hv
    have hlenx : (u ++ "x").length = u.length + 1 := by
      rw [String.length_append]; rfl
    rcases List.mem_cons.mp hv with h1 | h1
    · rw [h1, hlenx]; omega
    · have := hlen v h1
      rw [hlenx]; omega

/-- C9, counterexample to the claim as stated: with a site whose every
"more tracks" page delivers an empty track list and a fresh next URL, the
loop never terminates: no fuel suffices.  (A page adding no new tracks does
not stop the loop when a next link is present, and the cycle guard cannot
fire because every URL is new.) -/
theorem C9_cex :
    ¬ ∃ fuel : Nat, (load_more_tracks siteC9 fuel (initLoop [] (some "a"))).isSome = true := by
  rintro ⟨fuel, hsome⟩
  rw [C9_cex_aux fuel (initLoop [] (some "a")) "a" rfl rfl (by decide)
    (by intro v hv; simp [initLoop] at hv)] at hsome
  simp at hsome

theorem loopActive_elim {s : LoopState} (hact : loopActive s = true) :
    ∃ u, s.broke = false ∧ s.loopUrl = some u ∧ u ∉ s.seenPages := by
  rw [loopActive] at hact
  rcases Bool.and_eq_true_iff.mp hact with ⟨h12, h3⟩
  rcases Bool.and_eq_true_iff.mp h12 with ⟨h1, h2⟩
  cases hl : s.loopUrl with
  | none =>
    rw [hl, truO] at h2
    exact Bool.noConfusion h2
  | some u =>
    refine ⟨u, ?_, rfl, ?_⟩
    · rcases bool_split s.broke with hb | hb
      · exact hb
      · rw [hb] at h1; exact Bool.noConfusion h1
    · rw [hl, Option.getD_some] at h3
      exact of_decide_eq_true h3

theorem loopBody_seenPages (siteLoop : String → Option (List TrackItem × Option String))
    (s : LoopState) (u : String) :
    (loopBody siteLoop s u).seenPages = u :: s.seenPages := by
  cases s with
  | mk tr st sp pc lu bk =>
    rw [loopBody]
    cases hq : siteLoop u with
    | none => rfl
    | some pr =>
      cases pr with
      | mk ts nxt =>
        simp only []
        split
        · rfl
        · rfl

theorem loopBody_cases (siteLoop : String → Option (List TrackItem × Option String))
    (s : LoopState) (u : String) :
    (loopBody siteLoop s u).broke = true ∨
      ((loopBody siteLoop s u).broke = s.broke ∧
        (loopBody siteLoop s u).loopUrl = nextOf (siteLoop u)) := by
  cases s with
  | mk tr st sp pc lu bk =>
    rw [loopBody]
    cases hq : siteLoop u with
    | none => exact Or.inl rfl
    | some pr =>
      cases pr with
      | mk ts nxt =>
        simp only []
        split
        · exact Or.inl rfl
        · exact Or.inr ⟨rfl, rfl⟩

theorem C9_amended_aux (siteLoop : String → Option (List TrackItem × Option String))
    (U : Finset String)
    (hclosed : ∀ u ∈ U, (nextOf (siteLoop u)).all (fun v => decide (v ∈ U)) = true) :
    ∀ (n : Nat) (s : LoopState),
      (∀ u, s.loopUrl = some u → s.broke = false → u ∈ U) →
      (U.filter (fun v => v ∉ s.seenPages)).card ≤ n →
      (load_more_tracks siteLoop (n + 1) s).isSome = true := by
  intro n
  induction n with
  | zero =>
    intro s hInv hm
    rcases bool_split (loopActive s) with hact | hact
    · rw [load_more_tracks_inactive siteLoop hact]; rfl
    · rcases loopActive_elim hact with ⟨u, hb, hu, hns⟩
      have hUu : u ∈ U := hInv u hu hb
      have hmemf : u ∈ U.filter (fun v => v ∉ s.seenPages) :=
        Finset.mem_filter.mpr ⟨hUu, hns⟩
      have : 0 < (U.filter (fun v => v ∉ s.seenPages)).card :=
        Finset.card_pos.mpr ⟨u, hmemf⟩
      omega
  | succ n ih =>
    intro s hInv hm
    rcases bool_split (loopActive s) with hact | hact
    · rw [load_more_tracks_inactive siteLoop hact]; rfl
    · rcases loopActive_elim hact with ⟨u, hb, hu, hns⟩
      have hUu : u ∈ U := hInv u hu hb
      have hgd : s.loopUrl.getD "" = u := by rw [hu]; rfl
      rw [load_more_tracks, if_pos hact, hgd]
      have hsp : (loopBody siteLoop s u).seenPages = u :: s.seenPages :=
        loopBody_seenPages siteLoop s u
      have hfe : U.filter (fun v => v ∉ u :: s.seenPages) =
          (U.filter (fun v => v ∉ s.seenPages)).erase u := by
        ext x
        simp only [Finset.mem_filter, Finset.mem_erase, List.mem_cons]
        constructor
        · rintro ⟨hxU, hxn⟩
          exact ⟨fun hxu => hxn (Or.inl hxu), hxU, fun hxm => hxn (Or.inr hxm)⟩
        · rintro ⟨hxu, hxU, hxm⟩
          refine ⟨hxU, ?_⟩
          rintro (h | h)
          · exact hxu h
          · exact hxm h
      have hmemf : u ∈ U.filter (fun v => v ∉ s.seenPages) :=
        Finset.mem_filter.mpr ⟨hUu, hns⟩
      have hlt : (U.filter (fun v => v ∉ (loopBody siteLoop s u).seenPages)).card ≤ n := by
        rw [hsp, hfe]
        have := Finset.card_erase_lt_of_mem hmemf
        omega
      apply ih (loopBody siteLoop s u) ?_ hlt
      intro u' hu' hb'
      rcases loopBody_cases siteLoop s u with hbr | ⟨_, hl'⟩
      · rw [hbr] at hb'; exact Bool.noConfusion hb'
      · have hna : (nextOf (siteLoop u)).all (fun v => decide (v ∈ U)) = true :=
          hclosed u hUu
        rw [hl'] at hu'
        rw [hu'] at hna
        exact of_decide_eq_true (by simpa using hna)

/-- C9, amended: the loop never revisits a page URL, so whenever the set of
reachable "more tracks" URLs is finite (a finite set containing the start
URL and closed under next links), the loop terminates; one fuel unit per
member of the set plus one suffices.  (Stated infinitely many fresh URLs, as
in the counterexample, are the only way not to terminate; the "no new
tracks" condition alone does not stop the loop.) -/
theorem C9_loop_terminates_amended
    (siteLoop : String → Option (List TrackItem × Option String))
    (U : Finset String) (start : String) (tracks : List TrackItem)
    (hstart : start ∈ U)
    (hclosed : ∀ u ∈ U, (nextOf (siteLoop u)).all (fun v => decide (v ∈ U)) = true) :
    (load_more_tracks siteLoop (U.card + 1) (initLoop tracks (some start))).isSome = true := by
  apply C9_amended_aux siteLoop U hclosed U.card (initLoop tracks (some start))
  · intro u hu _
    rw [initLoop] at hu
    simp only [] at hu
    cases hu
    exact hstart
  · calc (U.filter (fun v => v ∉ (initLoop tracks (some start)).seenPages)).card
        ≤ U.card := Finset.card_filter_le _ _
    _ ≤ U.card := le_refl _

/-- The two-page site of the C9 witness. -/
def siteC9w : String → Option (List TrackItem × Option String) :=
  fun u => if u = "a" then some ([], some "b")
    else if u = "b" then some ([], none)
    else none

theorem C9_witness :
    (load_more_tracks siteC9w (Finset.card {"a", "b"} + 1)
      (initLoop [] (some "a"))).isSome = true :=
  C9_loop_terminates_amended siteC9w {"a", "b"} "a" [] (by decide) (by decide)

/-! ## Properties of the child-context fold -/

theorem addChild_cmap (rn : String) (g ap : Option String) (st : CrawlState) (c : String) :
    (addChild rn g ap st c).collection_map = upd st.collection_map (normalize_url c) rn := by
  rw [addChild]
  simp only []
  split <;> split <;> split <;> rfl

theorem addChild_gmap (rn : String) (g ap : Option String) (st : CrawlState) (c : String)
    (hg : truO g = false) :
    (addChild rn g ap st c).group_map = st.group_map := by
  rw [addChild]
  simp only [hg]
  split <;> split <;> split <;>
    first
    | rfl
    | exact absurd ‹false = true› (by simp)
    | exact absurd rfl ‹¬(true = true)›
    | exact absurd trivial ‹¬True›

theorem addChild_apmap_true (rn : String) (g ap : Option String) (st : CrawlState) (c : String)
    (hap : truO ap = true) :
    (addChild rn g ap st c).author_prefixed_map =
      upd st.author_prefixed_map (normalize_url c) (ap.getD "") := by
  rw [addChild]
  simp only [hap]
  split <;> split <;> split <;>
    first
    | rfl
    | exact absurd ‹false = true› (by simp)
    | exact absurd rfl ‹¬(true = true)›
    | exact absurd trivial ‹¬True›

theorem addChild_seen (rn : String) (g ap : Option String) (st : CrawlState) (c : String) :
    (addChild rn g ap st c).seen = st.seen := by
  rw [addChild]
  simp only []
  split <;> split <;> split <;> rfl

theorem addChild_queue (rn : String) (g ap : Option String) (st : CrawlState) (c : String)
    {x : String} (hx : x ∈ (addChild rn g ap st c).queue) :
    x ∈ st.queue ∨ x = normalize_url c := by
  rw [addChild] at hx
  simp only [] at hx
  split at hx <;> split at hx <;> split at hx <;>
    first
    | exact Or.inl hx
    | (rcases List.mem_append.mp hx with h | h
       · exact Or.inl h
       · exact Or.inr (List.mem_singleton.mp h))

theorem addChildren_cmap (rn : String) (g ap : Option String) (children : List String) :
    ∀ (s : CrawlState) (x : String),
      (addChildren rn g ap s children).collection_map x =
        if x ∈ children.map normalize_url then some rn else s.collection_map x := by
  induction children with
  | nil =>
    intro s x
    rw [addChildren, List.foldl_nil]
    simp
  | cons c cs ih =>
    intro s x
    rw [addChildren, List.foldl_cons]
    have := ih (addChild rn g ap s c) x
    rw [addChildren] at this
    rw [this, addChild_cmap]
    by_cases hx : x ∈ cs.map normalize_url
    · rw [if_pos hx, if_pos (by simp [hx])]
    · rw [if_neg hx, upd]
      by_cases hxc : x = normalize_url c
      · rw [if_pos hxc, if_pos (by simp [hxc])]
      · rw [if_neg hxc, if_neg (by simp [hxc, hx])]

theorem addChildren_gmap (rn : String) (g ap : Option String) (children : List String)
    (hg : truO g = false) :
    ∀ (s : CrawlState),
      (addChildren rn g ap s children).group_map = s.group_map := by
  induction children with
  | nil =>
    intro s
    rw [addChildren, List.foldl_nil]
  | cons c cs ih =>
    intro s
    rw [addChildren, List.foldl_cons]
    have := ih (addChild rn g ap s c)
    rw [addChildren] at this
    rw [this, addChild_gmap _ _ _ _ _ hg]

theorem addChildren_apmap_true (rn : String) (g ap : Option String) (children : List String)
    (hap : truO ap = true) :
    ∀ (s : CrawlState) (x : String),
      (addChildren rn g ap s children).author_prefixed_map x =
        if x ∈ children.map normalize_url then some (ap.getD "") else s.author_prefixed_map x := by
  induction children with
  | nil =>
    intro s x
    rw [addChildren, List.foldl_nil]
    simp
  | cons c cs ih =>
    intro s x
    rw [addChildren, List.foldl_cons]
    have := ih (addChild rn g ap s c) x
    rw [addChildren] at this
    rw [this, addChild_apmap_true _ _ _ _ _ hap]
    by_cases hx : x ∈ cs.map normalize_url
    · rw [if_pos hx, if_pos (by simp [hx])]
    · rw [if_neg hx, upd]
      by_cases hxc : x = normalize_url c
      · rw [if_pos hxc, if_pos (by simp [hxc])]
      · rw [if_neg hxc, if_neg (by simp [hxc, hx])]

theorem addChildren_seen (rn : String) (g ap : Option String) (children : List String) :
    ∀ (s : CrawlState), (addChildren rn g ap s children).seen = s.seen := by
  induction children with
  | nil =>
    intro s
    rw [addChildren, List.foldl_nil]
  | cons c cs ih =>
    intro s
    rw [addChildren, List.foldl_cons]
    have := ih (addChild rn g ap s c)
    rw [addChildren] at this
    rw [this, addChild_seen]

theorem addChildren_queue (rn : String) (g ap : Option String) (children : List String) :
    ∀ (s : CrawlState) (x : String), x ∈ (addChildren rn g ap s children).queue →
      x ∈ s.queue ∨ x ∈ children.map normalize_url := by
  induction children with
  | nil =>
    intro s x hx
    rw [addChildren, List.foldl_nil] at hx
    exact Or.inl hx
  | cons c cs ih =>
    intro s x hx
    rw [addChildren, List.foldl_cons] at hx
    have step := ih (addChild rn g ap s c) x (by rw [addChildren]; exact hx)
    rcases step with h | h
    · rcases addChild_queue rn g ap s c h with h1 | h1
      · exact Or.inl h1
      · exact Or.inr (by rw [List.map_cons, h1]; exact List.mem_cons_self _ _)
    · exact Or.inr (by rw [List.map_cons]; exact List.mem_cons_of_mem _ h)

/-! ## Claim C5: later context writes overwrite (last-writer-wins) -/

/-- C5, amended: a context-map write performed when a collection is
processed always takes effect, overwriting any earlier value: after
processWork on a collection, every child's collection_map entry is that
collection's root name, whatever the entry held before. -/
theorem C5_last_writer_wins (s : CrawlState) (url : String) (w : WorkData)
    (c : String) (hc : c ∈ w.collectionUrls) :
    (processWork s url w).1.collection_map (normalize_url c) =
      some (rootNameOf url w) := by
  have hne : w.collectionUrls.isEmpty = false := by
    cases hcs : w.collectionUrls with
    | nil => rw [hcs] at hc; simp at hc
    | cons a t => rfl
  rw [processWork]
  simp only [hne, Bool.false_eq_true, if_false]
  rw [addChildren_cmap]
  rw [if_pos (List.mem_map_of_mem _ hc)]

/-- A plain work page for concrete crawl scenarios. -/
def wpOf (title author : Option String) (cus : List String) : PageData :=
  { isListing := false, listing := ⟨none, [], none⟩,
    work := ⟨title, author, none, false, cus⟩ }

/-- The C5 counterexample site: two collections A and B both list the same
child X. -/
def siteC5 : String → Option PageData := fun u =>
  if u = "A" then some (wpOf (some "Aproj") none ["X"])
  else if u = "B" then some (wpOf (some "Bproj") none ["X"])
  else if u = "X" then some (wpOf (some "Xwork") none [])
  else none

set_option maxRecDepth 8192 in
/-- C5, counterexample to first-writer-wins as claimed: crawling [A, B, X]
where collections A then B both claim child X, the first write sets X's
collection_root entry to "Aproj", but after B is processed the entry reads
"Bproj", and the item yielded for X carries "Bproj": the later conflicting
write replaced the earlier one instead of being ignored. -/
theorem C5_cex :
    (iter_items siteC5 0 1 1 (initState ["A", "B", "X"])).state.collection_map "X" =
      some "Aproj" ∧
    ((iter_items siteC5 0 1 9 (initState ["A", "B", "X"])).yielded.filter
      (fun i => i.sourceUrl = "X")).map (fun i => i.collectionRoot) = [some "Bproj"] ∧
    ("Aproj" : String) ≠ "Bproj" := by
  refine ⟨by decide, by decide, by decide⟩

/-- The prior crawl state of the C5 witness, holding an earlier conflicting
write for child X. -/
def stateC5w : CrawlState :=
  ⟨[], [], upd (fun _ => none) "X" "OLD", fun _ => none, fun _ => none⟩

/-- The collection page of the C5 witness. -/
def workC5w : WorkData := ⟨some "Aproj", none, none, false, ["X"]⟩

theorem C5_witness :
    stateC5w.collection_map "X" = some "OLD" ∧
    (processWork stateC5w "A" workC5w).1.collection_map "X" = some "Aproj" ∧
    ("OLD" : String) ≠ "Aproj" := by
  have h := C5_last_writer_wins stateC5w "A" workC5w "X" (by decide)
  have hnx : normalize_url "X" = "X" := by decide
  rw [hnx] at h
  have hroot : rootNameOf "A" workC5w = "Aproj" := by decide
  rw [hroot] at h
  exact ⟨by decide, h, by decide⟩

/-! ## Properties of the listing walker and the crawl loop -/

theorem addListedWork_seen (g : String) (st : CrawlState) (w : String) :
    (addListedWork g st w).seen = st.seen := by
  rw [addListedWork]
  simp only []
  split
  · rfl
  · rfl

theorem addListedWork_cmap (g : String) (st : CrawlState) (w : String) :
    (addListedWork g st w).collection_map = st.collection_map := by
  rw [addListedWork]
  simp only []
  split
  · rfl
  · rfl

theorem addListedWork_apmap (g : String) (st : CrawlState) (w : String) :
    (addListedWork g st w).author_prefixed_map = st.author_prefixed_map := by
  rw [addListedWork]
  simp only []
  split
  · rfl
  · rfl

theorem addListedWork_gmap (g : String) (st : CrawlState) (w : String) :
    (addListedWork g st w).group_map = upd st.group_map (normalize_url w) g := by
  rw [addListedWork]
  simp only []
  split
  · rfl
  · rfl

theorem addListedWork_queue (g : String) (st : CrawlState) (w : String)
    {x : String} (hx : x ∈ (addListedWork g st w).queue) :
    x ∈ st.queue ∨ x = normalize_url w := by
  rw [addListedWork] at hx
  simp only [] at hx
  split at hx
  · exact Or.inl hx
  · rcases List.mem_append.mp hx with h | h
    · exact Or.inl h
    · exact Or.inr (List.mem_singleton.mp h)

theorem foldWorks_seen (g : String) (works : List String) :
    ∀ (s : CrawlState), (works.foldl (addListedWork g) s).seen = s.seen := by
  induction works with
  | nil => intro s; rw [List.foldl_nil]
  | cons w ws ih =>
    intro s
    rw [List.foldl_cons, ih, addListedWork_seen]

theorem foldWorks_cmap (g : String) (works : List String) :
    ∀ (s : CrawlState), (works.foldl (addListedWork g) s).collection_map = s.collection_map := by
  induction works with
  | nil => intro s; rw [List.foldl_nil]
  | cons w ws ih =>
    intro s
    rw [List.foldl_cons, ih, addListedWork_cmap]

theorem foldWorks_apmap (g : String) (works : List String) :
    ∀ (s : CrawlState),
      (works.foldl (addListedWork g) s).author_prefixed_map = s.author_prefixed_map := by
  induction works with
  | nil => intro s; rw [List.foldl_nil]
  | cons w ws ih =>
    intro s
    rw [List.foldl_cons, ih, addListedWork_apmap]

theorem foldWorks_gmap (g : String) (works : List String) :
    ∀ (s : CrawlState) (x : String),
      (works.foldl (addListedWork g) s).group_map x =
        if x ∈ works.map normalize_url then some g else s.group_map x := by
  induction works with
  | nil => intro s x; rw [List.foldl_nil]; simp
  | cons w ws ih =>
    intro s x
    rw [List.foldl_cons, ih, addListedWork_gmap]
    by_cases hx : x ∈ ws.map normalize_url
    · rw [if_pos hx, if_pos (by simp [hx])]
    · rw [if_neg hx, upd]
      by_cases hxw : x = normalize_url w
      · rw [if_pos hxw, if_pos (by simp [hxw])]
      · rw [if_neg hxw, if_neg (by simp [hxw, hx])]

theorem foldWorks_queue (g : String) (works : List String) :
    ∀ (s : CrawlState) (x : String), x ∈ (works.foldl (addListedWork g) s).queue →
      x ∈ s.queue ∨ x ∈ works.map normalize_url := by
  induction works with
  | nil => intro s x hx; rw [List.foldl_nil] at hx; exact Or.inl hx
  | cons w ws ih =>
    intro s x hx
    rw [List.foldl_cons] at hx
    rcases ih (addListedWork g s w) x hx with h | h
    · rcases addListedWork_queue g s w h with h1 | h1
      · exact Or.inl h1
      · exact Or.inr (by rw [List.map_cons, h1]; exact List.mem_cons_self _ _)
    · exact Or.inr (by rw [List.map_cons]; exact List.mem_cons_of_mem _ h)

theorem listingWalk_seen (site : String → Option PageData) (maxPages : Nat) :
    ∀ (fuel : Nat) (s : CrawlState) (gname : Option String) (count : Nat)
      (current : String) (d : ListingData),
      (listingWalk site maxPages fuel s gname count current d).1.seen = s.seen := by
  intro fuel
  induction fuel with
  | zero => intro s gname count current d; rfl
  | succ n ih =>
    intro s gname count current d
    rw [listingWalk]
    simp only []
    cases hnx : d.next with
    | none => exact foldWorks_seen _ _ _
    | some nxt =>
      simp only []
      rcases bool_split (urljoin current nxt).data.isEmpty with h1 | h1
      · rw [if_neg (by simp [h1])]
        rcases bool_split (pageCapReached maxPages (count + 1)) with h2 | h2
        · rw [if_neg (by simp [h2])]
          by_cases h3 : urljoin current nxt ∈
              (d.works.foldl (addListedWork (listingGroupRoot (resolveGroupName gname d) current)) s).seen
          · rw [if_pos h3]
            exact foldWorks_seen _ _ _
          · rw [if_neg h3]
            cases hst : site (urljoin current nxt) with
            | none => exact foldWorks_seen _ _ _
            | some pd =>
              simp only []
              rw [ih]
              exact foldWorks_seen _ _ _
        · rw [if_pos h2]
          exact foldWorks_seen _ _ _
      · rw [if_pos h1]
        exact foldWorks_seen _ _ _

theorem processWork_seen (s : CrawlState) (url : String) (w : WorkData) :
    (processWork s url w).1.seen = s.seen := by
  rw [processWork]
  simp only []
  split
  · rfl
  · exact addChildren_seen _ _ _ _ _

theorem processWork_sourceUrl (s : CrawlState) (url : String) (w : WorkData) :
    (processWork s url w).2.sourceUrl = url := by
  rw [processWork]
  simp only []
  split
  · rfl
  · split
    · rfl
    · split
      · rfl
      · rfl

theorem iter_processed_fresh (site : String → Option PageData) (maxPages pageFuel : Nat) :
    ∀ (fuel : Nat) (s : CrawlState) (u : String),
      u ∈ (iter_items site maxPages pageFuel fuel s).processed → u ∉ s.seen := by
  intro fuel
  induction fuel with
  | zero =>
    intro s u hmem
    rw [iter_items] at hmem
    simp at hmem
  | succ n ih =>
    intro s u hmem
    rw [iter_items] at hmem
    cases hq : s.queue with
    | nil =>
      rw [hq] at hmem
      simp at hmem
    | cons url rest =>
      rw [hq] at hmem
      simp only [] at hmem
      by_cases hseen : url ∈ s.seen
      · rw [if_pos hseen] at hmem
        exact ih { s with queue := rest } u hmem
      · rw [if_neg hseen] at hmem
        cases hst : site url with
        | none =>
          rw [hst] at hmem
          try simp only [] at hmem
          rcases List.mem_cons.mp hmem with h | h
          · rw [h]; exact hseen
          · intro hu
            exact ih _ u h (List.mem_cons_of_mem _ hu)
        | some pd =>
          rw [hst] at hmem
          try simp only [] at hmem
          rcases bool_split pd.isListing with hL | hL
          · rw [hL, if_neg (by simp)] at hmem
            rcases List.mem_cons.mp hmem with h | h
            · rw [h]; exact hseen
            · intro hu
              have := ih _ u h
              rw [processWork_seen] at this
              exact this (List.mem_cons_of_mem _ hu)
          · rw [hL, if_pos rfl] at hmem
            rcases List.mem_cons.mp hmem with h | h
            · rw [h]; exact hseen
            · intro hu
              have := ih _ u h
              rw [listingWalk_seen] at this
              exact this (List.mem_cons_of_mem _ hu)

theorem iter_processed_nodup (site : String → Option PageData) (maxPages pageFuel : Nat) :
    ∀ (fuel : Nat) (s : CrawlState),
      (iter_items site maxPages pageFuel fuel s).processed.Nodup := by
  intro fuel
  induction fuel with
  | zero =>
    intro s
    rw [iter_items]
    exact List.nodup_nil
  | succ n ih =>
    intro s
    rw [iter_items]
    cases hq : s.queue with
    | nil => exact List.nodup_nil
    | cons url rest =>
      simp only []
      by_cases hseen : url ∈ s.seen
      · rw [if_pos hseen]
        exact ih _
      · rw [if_neg hseen]
        cases hst : site url with
        | none =>
          simp only []
          refine List.nodup_cons.mpr ⟨?_, ih _⟩
          intro hmem
          have := iter_processed_fresh site maxPages pageFuel n _ url hmem
          exact this (List.mem_cons_self _ _)
        | some pd =>
          simp only []
          rcases bool_split pd.isListing with hL | hL
          · rw [hL, if_neg (by simp)]
            refine List.nodup_cons.mpr ⟨?_, ih _⟩
            intro hmem
            have := iter_processed_fresh site maxPages pageFuel n _ url hmem
            rw [processWork_seen] at this
            exact this (List.mem_cons_self _ _)
          · rw [hL, if_pos rfl]
            refine List.nodup_cons.mpr ⟨?_, ih _⟩
            intro hmem
            have := iter_processed_fresh site maxPages pageFuel n _ url hmem
            rw [listingWalk_seen] at this
            exact this (List.mem_cons_self _ _)

theorem iter_yield_sublist (site : String → Option PageData) (maxPages pageFuel : Nat) :
    ∀ (fuel : Nat) (s : CrawlState),
      ((iter_items site maxPages pageFuel fuel s).yielded.map
        (fun i => i.sourceUrl)).Sublist (iter_items site maxPages pageFuel fuel s).processed := by
  intro fuel
  induction fuel with
  | zero =>
    intro s
    rw [iter_items]
    exact List.Sublist.refl _
  | succ n ih =>
    intro s
    rw [iter_items]
    cases hq : s.queue with
    | nil => exact List.Sublist.refl _
    | cons url rest =>
      simp only []
      by_cases hseen : url ∈ s.seen
      · rw [if_pos hseen]
        exact ih _
      · rw [if_neg hseen]
        cases hst : site url with
        | none =>
          simp only []
          exact List.Sublist.cons _ (ih _)
        | some pd =>
          simp only []
          rcases bool_split pd.isListing with hL | hL
          · rw [hL, if_neg (by simp)]
            rw [List.map_cons, processWork_sourceUrl]
            exact List.Sublist.cons₂ _ (ih _)
          · rw [hL, if_pos rfl]
            exact List.Sublist.cons _ (ih _)

/-! ## Claim C3: visited-set uniqueness -/

/-- C3, amended: in every run the crawl loop processes (fetches at the
dequeue point) each exact URL string at most once — the processed-URL log is
duplicate-free — and the yielded items' source URLs form a sub-sequence of
that log, so at most one item is yielded per exact URL.  (Per normalized
URL the claim fails: see the counterexample with a fragment-bearing start
URL; listing pagination fetches, recorded in the fetched log but not the
processed log, can also repeat a URL.) -/
theorem C3_dequeue_once_amended (site : String → Option PageData)
    (maxPages pageFuel fuel : Nat) (s : CrawlState) :
    (iter_items site maxPages pageFuel fuel s).processed.Nodup ∧
    ((iter_items site maxPages pageFuel fuel s).yielded.map
      (fun i => i.sourceUrl)).Sublist (iter_items site maxPages pageFuel fuel s).processed ∧
    ((iter_items site maxPages pageFuel fuel s).yielded.map
      (fun i => i.sourceUrl)).Nodup := by
  refine ⟨iter_processed_nodup site maxPages pageFuel fuel s,
    iter_yield_sublist site maxPages pageFuel fuel s, ?_⟩
  exact (iter_processed_nodup site maxPages pageFuel fuel s).sublist
    (iter_yield_sublist site maxPages pageFuel fuel s)

/-- The C3 counterexample site: the fragment-bearing page "p#f" is a
collection whose single child is its own fragment-free URL "p". -/
def siteC3 : String → Option PageData := fun u =>
  if u = "p#f" then some (wpOf (some "A") none ["p"])
  else if u = "p" then some (wpOf (some "B") none [])
  else none

set_option maxRecDepth 8192 in
/-- C3, counterexample to the claim as stated: starting from the
fragment-bearing URL "p#f", the crawl fetches "p#f" and then its normalized
child "p" — two fetches of the same normalized URL — and yields two items
whose source URLs normalize identically.  Start URLs enter the visited set
un-normalized, so the visited check cannot catch the alias. -/
theorem C3_cex :
    (iter_items siteC3 0 1 4 (initState ["p#f"])).fetched = ["p#f", "p"] ∧
    ¬ ((iter_items siteC3 0 1 4 (initState ["p#f"])).fetched.map normalize_url).Nodup ∧
    ¬ ((iter_items siteC3 0 1 4 (initState ["p#f"])).yielded.map
        (fun i => normalize_url i.sourceUrl)).Nodup := by
  refine ⟨by decide, by decide, by decide⟩

theorem processWork_nested_propagation (s : CrawlState) (url : String) (w : WorkData)
    (ap0 : String)
    (hne : w.collectionUrls.isEmpty = false)
    (hread : s.author_prefixed_map (normalize_url url) = some ap0)
    (hap0 : ap0 ≠ "")
    (hnm : ¬(truO w.author = true ∧ pyLower (w.author.getD "") = "auteurs divers")) :
    (processWork s url w).2.authorPrefixed = some ap0 ∧
    ∀ c ∈ w.collectionUrls,
      (processWork s url w).1.author_prefixed_map (normalize_url c) = some ap0 := by
  have htru : truO (some ap0) = true := by
    rw [truO, data_isEmpty_false hap0]
    rfl
  have hm : (truO w.author && decide (pyLower (w.author.getD "") = "auteurs divers")) = false := by
    rcases bool_split (truO w.author) with h1 | h1
    · rw [h1]
      rfl
    · rcases bool_split (decide (pyLower (w.author.getD "") = "auteurs divers")) with h2 | h2
      · rw [h1, h2]
        rfl
      · exact absurd ⟨h1, of_decide_eq_true h2⟩ hnm
  constructor
  · rw [processWork]
    simp only [hne, Bool.not_false, Bool.or_true, Bool.true_and, hread, htru,
      Bool.not_true, Bool.and_false, hm, Bool.false_eq_true, if_false,
      eq_self_iff_true, if_true]
  · intro c hc
    rw [processWork]
    simp only [hne, Bool.not_false, Bool.or_true, Bool.true_and, hread, htru,
      Bool.not_true, Bool.and_false, hm, Bool.false_eq_true, if_false,
      eq_self_iff_true, if_true]
    rw [addChildren_apmap_true _ _ _ _ htru]
    rw [if_pos (List.mem_map_of_mem _ hc), Option.getD_some]

theorem determine_nested_child (it : AudioItem) (item_name : String)
    (out : List String) (ap cr : String)
    (hap : it.authorPrefixed = some ap) (hapne : ap ≠ "")
    (hcr : it.collectionRoot = some cr) (hcrne : cr ≠ "")
    (hskip : it.skipDownload = false)
    (hnest : cr ≠ parent_project_name ap) :
    (determine_folder_paths it item_name out).collection_dir =
      some (out ++ [sanitize_filename ap, sanitize_filename cr]) ∧
    (determine_folder_paths it item_name out).item_dir =
      out ++ [sanitize_filename ap, sanitize_filename cr, item_name] ∧
    (item_name ≠ sanitize_filename cr → sanitize_filename ap ≠ sanitize_filename cr →
      ([sanitize_filename ap, sanitize_filename cr, item_name].count
        (sanitize_filename cr)) = 1) := by
  have htruAp : truO (some ap) = true := by
    rw [truO, data_isEmpty_false hapne]
    rfl
  have htruCr : truO (some cr) = true := by
    rw [truO, data_isEmpty_false hcrne]
    rfl
  have hnd : decide (¬((some cr).getD "" = parent_project_name ap)) = true := by
    rw [Option.getD_some]
    exact decide_eq_true hnest
  have hpaths :
      (determine_folder_paths it item_name out).collection_dir =
        some (out ++ [sanitize_filename ap, sanitize_filename cr]) ∧
      (determine_folder_paths it item_name out).item_dir =
        out ++ [sanitize_filename ap, sanitize_filename cr, item_name] := by
    rw [determine_folder_paths]
    simp only [hap, hcr, hskip, htruAp, htruCr, hnd, Option.getD_some,
      Bool.false_and, Bool.and_true, Bool.true_and, Bool.false_eq_true, if_false,
      eq_self_iff_true, if_true, List.append_assoc, List.cons_append, List.nil_append]
    rw [if_pos (decide_eq_true hnest)]
    constructor
    · rfl
    · rfl
  refine ⟨hpaths.1, hpaths.2, ?_⟩
  intro h1 h2
  simp [List.count_cons, h1, h2, Ne.symm h1, Ne.symm h2]

/-! ## Claim C2: nesting stability -/

/-- C2: (crawl side) a collection that already carries an author_prefixed
context and is not the multi-author sentinel hands exactly that value,
unchanged, to every child's author_prefixed_map entry and to its own yielded
item; (resolver side) a non-skip item carrying author_prefixed and a
collection_root different from the project half of author_prefixed (a child
of a nested sub-collection) resolves to collection_dir =
output/author_prefixed/collection_root and item_dir =
collection_dir/item_name, with the inner collection title appearing exactly
once among the appended components. -/
theorem C2_nesting_stability :
    (∀ (s : CrawlState) (url : String) (w : WorkData) (ap0 : String),
      w.collectionUrls.isEmpty = false →
      s.author_prefixed_map (normalize_url url) = some ap0 →
      ap0 ≠ "" →
      ¬(truO w.author = true ∧ pyLower (w.author.getD "") = "auteurs divers") →
      (processWork s url w).2.authorPrefixed = some ap0 ∧
      ∀ c ∈ w.collectionUrls,
        (processWork s url w).1.author_prefixed_map (normalize_url c) = some ap0) ∧
    (∀ (it : AudioItem) (item_name : String) (out : List String) (ap cr : String),
      it.authorPrefixed = some ap → ap ≠ "" →
      it.collectionRoot = some cr → cr ≠ "" →
      it.skipDownload = false →
      cr ≠ parent_project_name ap →
      (determine_folder_paths it item_name out).collection_dir =
        some (out ++ [sanitize_filename ap, sanitize_filename cr]) ∧
      (determine_folder_paths it item_name out).item_dir =
        out ++ [sanitize_filename ap, sanitize_filename cr, item_name] ∧
      (item_name ≠ sanitize_filename cr → sanitize_filename ap ≠ sanitize_filename cr →
        ([sanitize_filename ap, sanitize_filename cr, item_name].count
          (sanitize_filename cr)) = 1)) :=
  ⟨fun s url w ap0 h1 h2 h3 h4 => processWork_nested_propagation s url w ap0 h1 h2 h3 h4,
   fun it item_name out ap cr h1 h2 h3 h4 h5 h6 =>
     determine_nested_child it item_name out ap cr h1 h2 h3 h4 h5 h6⟩

/-- The prior crawl state of the C2 witness: the nested collection M was
tagged author_prefixed by its parent. -/
def stateC2w : CrawlState :=
  ⟨[], [], fun _ => none, fun _ => none,
   upd (fun _ => none) "M" "Doyle - Sherlock Holmes"⟩

/-- The nested sub-collection page of the C2 witness. -/
def workC2w : WorkData :=
  ⟨some "La Vallee de la peur", some "Arthur Conan Doyle", none, false, ["c1"]⟩

/-- The child item of the C2 witness as the resolver sees it. -/
def itemC2w : AudioItem :=
  ⟨"c1", some "Episode 1", none, none, false, some "La Vallee de la peur",
   none, some "Doyle - Sherlock Holmes", false⟩

theorem C2_witness :
    ((processWork stateC2w "M" workC2w).2.authorPrefixed =
      some "Doyle - Sherlock Holmes" ∧
     (processWork stateC2w "M" workC2w).1.author_prefixed_map "c1" =
      some "Doyle - Sherlock Holmes") ∧
    ((determine_folder_paths itemC2w "Episode 1" ["out"]).collection_dir =
      some ["out", "Doyle - Sherlock Holmes", "La Vallee de la peur"] ∧
     (determine_folder_paths itemC2w "Episode 1" ["out"]).item_dir =
      ["out", "Doyle - Sherlock Holmes", "La Vallee de la peur", "Episode 1"]) := by
  have h1 := C2_nesting_stability.1 stateC2w "M" workC2w "Doyle - Sherlock Holmes"
    (by decide) (by decide) (by decide) (by decide)
  have h2 := C2_nesting_stability.2 itemC2w "Episode 1" ["out"]
    "Doyle - Sherlock Holmes" "La Vallee de la peur"
    rfl (by decide) rfl (by decide) rfl (by decide)
  have hc1 := h1.2 "c1" (by decide)
  have hn : normalize_url "c1" = "c1" := by decide
  rw [hn] at hc1
  refine ⟨⟨h1.1, hc1⟩, ?_, ?_⟩
  · rw [h2.1]
    decide
  · rw [h2.2.1]
    decide

/-! ## Claim C1: the multi-author override -/

/-- A URL whose page is a plain work (no children) or fails to fetch. -/
def plainWork (site : String → Option PageData) (u : String) : Prop :=
  match site u with
  | none => True
  | some pd => pd.isListing = false ∧ pd.work.collectionUrls = []

theorem str_len_pos {s : String} (h : s ≠ "") : 0 < s.length := by
  cases s with
  | mk l =>
    cases l with
    | nil => exact absurd rfl h
    | cons c r =>
      show 0 < (String.mk (c :: r)).data.length
      simp

theorem append_left_ne_empty {a : String} (b : String) (ha : a ≠ "") : a ++ b ≠ "" := by
  intro hcontra
  have := congrArg String.length hcontra
  rw [String.length_append] at this
  have h0 : ("" : String).length = 0 := rfl
  rw [h0] at this
  have := str_len_pos ha
  omega

theorem iter_empty_queue (site : String → Option PageData) (maxPages pageFuel : Nat)
    (fuel : Nat) (s : CrawlState) (hq : s.queue = []) :
    (iter_items site maxPages pageFuel fuel s).yielded = [] := by
  cases fuel with
  | zero => rw [iter_items]
  | succ n =>
    rw [iter_items, hq]

theorem processWork_plain_fields (s : CrawlState) (url : String) (w : WorkData)
    (hcu : w.collectionUrls = []) :
    (processWork s url w).1 = s ∧
    (processWork s url w).2.authorPrefixed =
      (if truO (s.author_prefixed_map (normalize_url url)) then
        s.author_prefixed_map (normalize_url url) else none) ∧
    (processWork s url w).2.groupRoot =
      (if truO (s.group_map (normalize_url url)) then
        s.group_map (normalize_url url) else none) := by
  rw [processWork]
  simp only [hcu, List.isEmpty_nil, eq_self_iff_true, if_true]
  refine ⟨?_, ?_, ?_⟩ <;> first | trivial | rfl

theorem C1_phase2 (site : String → Option PageData) (maxPages pageFuel : Nat)
    (ap0 : String) (hap0 : ap0 ≠ "") :
    ∀ (fuel : Nat) (s : CrawlState),
      (∀ u ∈ s.queue, u ∈ s.seen ∨
        (plainWork site u ∧ normalize_url u = u ∧
         s.author_prefixed_map u = some ap0 ∧ s.group_map u = none)) →
      ∀ i ∈ (iter_items site maxPages pageFuel fuel s).yielded,
        i.authorPrefixed = some ap0 ∧ i.groupRoot = none := by
  have htru : truO (some ap0) = true := by
    rw [truO, data_isEmpty_false hap0]
    rfl
  intro fuel
  induction fuel with
  | zero =>
    intro s hinv i hi
    rw [iter_items] at hi
    simp at hi
  | succ n ih =>
    intro s hinv i hi
    rw [iter_items] at hi
    cases hq : s.queue with
    | nil =>
      rw [hq] at hi
      simp at hi
    | cons url rest =>
      rw [hq] at hi
      simp only [] at hi
      have hrest : ∀ u ∈ rest, u ∈ s.seen ∨
          (plainWork site u ∧ normalize_url u = u ∧
           s.author_prefixed_map u = some ap0 ∧ s.group_map u = none) :=
        fun u hu => hinv u (by rw [hq]; exact List.mem_cons_of_mem _ hu)
      by_cases hseen : url ∈ s.seen
      · rw [if_pos hseen] at hi
        exact ih { s with queue := rest } hrest i hi
      · rw [if_neg hseen] at hi
        rcases hinv url (by rw [hq]; exact List.mem_cons_self _ _) with hc | ⟨hpw, hnu, hapm, hgm⟩
        · exact absurd hc hseen
        · have hrest2 : ∀ u ∈ rest, u ∈ url :: s.seen ∨
              (plainWork site u ∧ normalize_url u = u ∧
               s.author_prefixed_map u = some ap0 ∧ s.group_map u = none) := by
            intro u hu
            rcases hrest u hu with h | h
            · exact Or.inl (List.mem_cons_of_mem _ h)
            · exact Or.inr h
          cases hst : site url with
          | none =>
            rw [hst] at hi
            try simp only [] at hi
            exact ih { s with queue := rest, seen := url :: s.seen } hrest2 i hi
          | some pd =>
            rw [plainWork, hst] at hpw
            rw [hst] at hi
            try simp only [] at hi
            rw [hpw.1, if_neg (by simp)] at hi
            obtain ⟨hfix, hfap, hfgr⟩ :=
              processWork_plain_fields { s with queue := rest, seen := url :: s.seen }
                url pd.work hpw.2
            rcases List.mem_cons.mp hi with hhead | htail
            · rw [hhead]
              constructor
              · rw [hfap]
                show (if truO (s.author_prefixed_map (normalize_url url)) then
                  s.author_prefixed_map (normalize_url url) else none) = some ap0
                rw [hnu, hapm, htru, if_pos rfl]
              · rw [hfgr]
                show (if truO (s.group_map (normalize_url url)) then
                  s.group_map (normalize_url url) else none) = none
                rw [hnu, hgm, truO]
                rfl
            · rw [hfix] at htail
              exact ih { s with queue := rest, seen := url :: s.seen } hrest2 i htail

theorem processWork_multi (s : CrawlState) (url : String) (w : WorkData)
    (hne : w.collectionUrls.isEmpty = false)
    (hauthor : truO w.author = true)
    (hsent : pyLower (w.author.getD "") = "auteurs divers") :
    (processWork s url w).2.authorPrefixed =
      some ("Auteurs divers - " ++ rootNameOf url w) ∧
    (processWork s url w).2.groupRoot = none ∧
    (processWork s url w).1 =
      addChildren (rootNameOf url w) none
        (some ("Auteurs divers - " ++ rootNameOf url w)) s w.collectionUrls := by
  refine ⟨?_, ?_, ?_⟩ <;>
    (rw [processWork]
     simp only [hne, Bool.not_false, Bool.or_true, Bool.true_and, hauthor,
       decide_eq_true hsent, Bool.and_true, Bool.false_eq_true, if_false,
       eq_self_iff_true, if_true])

theorem resolveGroupName_none (d : ListingData) : resolveGroupName none d = d.name := rfl

/-- C1: in a crawl where an author listing L (with any group name) lists a
collection M whose author is the "auteurs divers" sentinel, every item
yielded for one of M's children carries author_prefixed =
"Auteurs divers - <M's root name>" and no group_root, regardless of the
listing's group root value. -/
theorem C1_multi_author_override
    (site : String → Option PageData) (maxPages pageFuel : Nat)
    (L M : String) (gname : Option String) (pdL pdM : PageData)
    (hML : M ≠ L)
    (hMn : normalize_url M = M)
    (hsiteL : site L = some pdL)
    (hLlist : pdL.isListing = true)
    (hLdata : pdL.listing = ⟨gname, [M], none⟩)
    (hsiteM : site M = some pdM)
    (hMwork : pdM.isListing = false)
    (hauthor : truO pdM.work.author = true)
    (hsent : pyLower (pdM.work.author.getD "") = "auteurs divers")
    (hch : ∀ c ∈ pdM.work.collectionUrls,
      normalize_url c = c ∧ c ≠ M ∧ plainWork site c) :
    ∀ (fuel : Nat), ∀ i ∈ (iter_items site maxPages pageFuel fuel (initState [L])).yielded,
      i.sourceUrl ∈ pdM.work.collectionUrls →
      i.authorPrefixed = some ("Auteurs divers - " ++ rootNameOf M pdM.work) ∧
      i.groupRoot = none := by
  intro fuel
  cases fuel with
  | zero =>
    intro i hi
    rw [iter_items] at hi
    simp at hi
  | succ f =>
    intro i hi his
    rw [iter_items, initState] at hi
    simp only [] at hi
    rw [if_neg (List.not_mem_nil L)] at hi
    rw [hsiteL] at hi
    try simp only [] at hi
    rw [hLlist, if_pos rfl] at hi
    try simp only [] at hi
    cases pageFuel with
    | zero =>
      rw [iter_empty_queue site maxPages 0 f _ rfl] at hi
      simp at hi
    | succ pf =>
      have hwalk : listingWalk site maxPages (pf + 1)
          ⟨[], [L], fun _ => none, fun _ => none, fun _ => none⟩ none 0 L pdL.listing =
          (⟨[M], [L], fun _ => none,
            upd (fun _ => none) M (listingGroupRoot gname L), fun _ => none⟩, []) := by
        rw [hLdata, listingWalk]
        simp only []
        rw [List.foldl_cons, List.foldl_nil, addListedWork]
        simp only [hMn]
        rw [if_neg (by simp [hML])]
        rfl
      rw [hwalk] at hi
      try simp only [] at hi
      cases f with
      | zero =>
        rw [iter_items] at hi
        simp at hi
      | succ f2 =>
        rw [iter_items] at hi
        simp only [] at hi
        rw [if_neg (by simp [hML])] at hi
        rw [hsiteM] at hi
        try simp only [] at hi
        rw [hMwork, if_neg (by simp)] at hi
        cases hcu : pdM.work.collectionUrls with
        | nil =>
          obtain ⟨hfix, _, _⟩ := processWork_plain_fields _ M pdM.work hcu
          rcases List.mem_cons.mp hi with hhead | htail
          · rw [hcu] at his
            simp at his
          · rw [hfix] at htail
            rw [iter_empty_queue site maxPages (pf + 1) f2 _ rfl] at htail
            simp at htail
        | cons c0 cs =>
          have hne : pdM.work.collectionUrls.isEmpty = false := by
            rw [hcu]
            rfl
          obtain ⟨hiap, higr, hstate⟩ := processWork_multi _ M pdM.work hne hauthor hsent
          rcases List.mem_cons.mp hi with hhead | htail
          · exfalso
            have hsrc := processWork_sourceUrl
              ⟨[], M :: [L], fun _ => none,
                upd (fun _ => none) M (listingGroupRoot gname L), fun _ => none⟩ M pdM.work
            rw [hhead] at his
            rw [hsrc] at his
            exact (hch M his).2.1 rfl
          · have hap0 : ("Auteurs divers - " ++ rootNameOf M pdM.work) ≠ "" :=
              append_left_ne_empty _ (by decide)
            have htru : truO (some ("Auteurs divers - " ++ rootNameOf M pdM.work)) = true := by
              rw [truO, data_isEmpty_false hap0]
              rfl
            rw [hstate] at htail
            refine C1_phase2 site maxPages (pf + 1) _ hap0 f2 _ ?_ i htail
            intro u hu
            rcases addChildren_queue _ _ _ _ _ u hu with h | h
            · simp at h
            · rcases List.mem_map.mp h with ⟨c, hcmem, hcn⟩
              have hcprops := hch c hcmem
              have hueq : u = c := by rw [← hcn, hcprops.1]
              refine Or.inr ⟨?_, ?_, ?_, ?_⟩
              · rw [hueq]; exact hcprops.2.2
              · rw [hueq, hcprops.1]
              · rw [addChildren_apmap_true _ _ _ _ htru]
                rw [if_pos (by rw [hueq, ← hcprops.1]; exact List.mem_map_of_mem _ hcmem)]
                rw [Option.getD_some]
              · have hgm := addChildren_gmap (rootNameOf M pdM.work) none
                  (some ("Auteurs divers - " ++ rootNameOf M pdM.work))
                  pdM.work.collectionUrls rfl
                  ⟨[], M :: [L], fun _ => none,
                   upd (fun _ => none) M (listingGroupRoot gname L), fun _ => none⟩
                rw [hgm]
                show upd (fun _ => none) M (listingGroupRoot gname L) u = none
                rw [upd, if_neg (by rw [hueq]; exact hcprops.2.1)]

/-- The author-listing page of the C1 witness. -/
def pageC1wL : PageData :=
  ⟨true, ⟨some "Balzac", ["M"], none⟩, ⟨none, none, none, false, []⟩⟩

/-- The multi-author collection page of the C1 witness. -/
def pageC1wM : PageData := wpOf (some "Grand Projet") (some "Auteurs divers") ["c1", "c2"]

/-- The C1 witness site: listing L (group "Balzac") lists the collection M
by "Auteurs divers", whose children c1 and c2 are plain works. -/
def siteC1w : String → Option PageData := fun u =>
  if u = "L" then some pageC1wL
  else if u = "M" then some pageC1wM
  else if u = "c1" then some (wpOf (some "Un") (some "Zola") [])
  else if u = "c2" then some (wpOf (some "Deux") none [])
  else none

/-- The item the crawl yields for child c1 in the C1 witness scenario. -/
def itemC1w : AudioItem :=
  ⟨"c1", some "Un", some "Zola", none, false, some "Grand Projet", none,
   some "Auteurs divers - Grand Projet", false⟩

set_option maxRecDepth 16384 in
theorem C1_witness :
    itemC1w ∈ (iter_items siteC1w 0 3 9 (initState ["L"])).yielded ∧
    itemC1w.authorPrefixed = some ("Auteurs divers - " ++ rootNameOf "M" pageC1wM.work) ∧
    itemC1w.groupRoot = none ∧
    "Auteurs divers - " ++ rootNameOf "M" pageC1wM.work = "Auteurs divers - Grand Projet" := by
  have hmem : itemC1w ∈ (iter_items siteC1w 0 3 9 (initState ["L"])).yielded := by decide
  have h := C1_multi_author_override siteC1w 0 3 "L" "M" (some "Balzac")
    pageC1wL pageC1wM (by decide) (by decide) rfl rfl rfl rfl rfl (by decide) (by decide)
    (by
      intro c hc
      rcases List.mem_cons.mp hc with h1 | h1
      · rw [h1]
        exact ⟨by decide, by decide, ⟨rfl, rfl⟩⟩
      · rcases List.mem_cons.mp h1 with h2 | h2
        · rw [h2]
          exact ⟨by decide, by decide, ⟨rfl, rfl⟩⟩
        · simp at h2)
    9 itemC1w hmem (by decide)
  exact ⟨hmem, h.1, h.2, by decide⟩
